import Mathlib

/-!
# Verification of the akaza kana-kanji conversion core

A shallow embedding, in Lean 4, of the parts of the akaza repository
(`src/libakaza`) that the specification's claims are about:

* `numeric_counter.rs` — numeric/counter parsing and the LM-key normalizer;
* `graph/graph_builder.rs` — `normalize_surface_for_lm`;
* `user_side_data/*.rs` — the three user-learning stores;
* `graph/lattice_graph.rs` — node and edge cost lookup;
* `graph/graph_resolver.rs` — the k-best Viterbi resolver, candidate
  collection and compound breakdown;
* `graph/reranking.rs` — the linear re-ranker;
* `lm/system_unigram_lm.rs` — the packed unigram trie keys and lookup.

Modelling conventions, used throughout:

* Rust `&str`/`String` values are modelled as `List Char` (Unicode scalar
  values).  The Rust code indexes strings by UTF-8 byte offsets, but every
  offset it ever uses lies on a character boundary (offsets come from
  `find`, `char_indices`, or counting leading ASCII bytes), so positions
  are represented by character prefixes and byte *lengths* are recovered
  with `utf8Len` (sum of `Char.utf8Size`) where the code compares `len()`.
* `f32` values are modelled by `F`: either `nan` or a finite rational.
  Infinities and signed zero never arise in the claims under study.
  IEEE NaN propagation through `+`/`*` is preserved (`nan * 0 = nan`);
  finite arithmetic is exact rational arithmetic, which is adequate
  because no claim depends on rounding.
* `i64`/`i128` intermediates are modelled by `Int`; the explicit
  `i64::MAX` range checks of the source are kept (`i64Max`).  The `i128`
  intermediates of `parse_kanji_number_exact`/`parse_kana_number_exact`
  are modelled as unbounded integers; the final `i64::try_from` check is
  kept, as in the source.
* Fallible operations (panicking `unwrap`, failed `bail!`) are modelled
  with `Option`/`Except`.
* Hash maps are modelled as association lists with insert-replace.
-/

/-- Rust string slices, as lists of Unicode scalar values. -/
abbrev Str := List Char

/-- Shorthand to turn a Lean string literal into a `Str`. -/
def strL (s : String) : Str := s.data

/-- UTF-8 byte length of a string, as computed by Rust's `str::len()`. -/
def utf8Len (s : Str) : Nat := (s.map Char.utf8Size).sum

/-- Drop a UTF-8 byte prefix of length `n` from a string.  The source only
slices at character boundaries, where this agrees with Rust's `&s[n..]`. -/
def dropUtf8 : Nat → Str → Str
  | 0, s => s
  | _, [] => []
  | n, c :: t => if c.utf8Size ≤ n then dropUtf8 (n - c.utf8Size) t else c :: t

/-- `f32` values: NaN, or a finite value modelled as an exact rational. -/
inductive F : Type where
  | nan : F
  | fin : ℚ → F
deriving DecidableEq, Repr

namespace F

/-- IEEE addition on the modelled values: NaN propagates. -/
def add : F → F → F
  | fin a, fin b => fin (a + b)
  | _, _ => nan

/-- IEEE multiplication on the modelled values: NaN propagates
(in particular `0 * NaN = NaN`, as in IEEE 754). -/
def mul : F → F → F
  | fin a, fin b => fin (a * b)
  | _, _ => nan

/-- Rust's `f32::partial_cmp`: `None` whenever either side is NaN. -/
def partialCmp : F → F → Option Ordering
  | fin a, fin b =>
    some (if a < b then Ordering.lt else if a = b then Ordering.eq else Ordering.gt)
  | _, _ => none

def isNan : F → Bool
  | nan => true
  | fin _ => false

/-- Rust's `f32::eq` (IEEE equality): NaN is not equal to anything,
including itself. -/
def rustEq : F → F → Bool
  | fin a, fin b => a = b
  | _, _ => false

/-- `f32::MAX`, exactly: `(2^24 - 1) * 2^104`. -/
def f32MAX : F := fin 340282346638528859811704183484516925440

end F

/-- Insertion sort by a total comparator, ascending: an element moves past
exactly the elements it compares `gt` against.  Models Rust's
`slice::sort`/`sort_by` with an infallible comparator (tie order among
`eq`-comparing elements is not observable by any claim proved below). -/
def insertCmp (cmp : α → α → Ordering) (x : α) : List α → List α
  | [] => [x]
  | y :: ys =>
    match cmp x y with
    | Ordering.gt => y :: insertCmp cmp x ys
    | _ => x :: y :: ys

def sortByCmp (cmp : α → α → Ordering) : List α → List α
  | [] => []
  | x :: xs => insertCmp cmp x (sortByCmp cmp xs)

/-- Insertion sort by a *fallible* comparator: a `none` comparison aborts
the whole sort.  Models Rust's `sort_by(|a, b| ... .unwrap())`, where a
`None` from `partial_cmp` panics. -/
def insertCmpM (cmp : α → α → Option Ordering) (x : α) : List α → Option (List α)
  | [] => some [x]
  | y :: ys =>
    match cmp x y with
    | none => none
    | some Ordering.gt => (insertCmpM cmp x ys).map (y :: ·)
    | some _ => some (x :: y :: ys)

def sortByCmpM (cmp : α → α → Option Ordering) : List α → Option (List α)
  | [] => some []
  | x :: xs => (sortByCmpM cmp xs).bind (insertCmpM cmp x)

/-- Association list lookup (`HashMap::get`). -/
def lookupBy (eq : κ → κ → Bool) (k : κ) : List (κ × υ) → Option υ
  | [] => none
  | (k', v) :: t => if eq k k' then some v else lookupBy eq k t

/-- Association list insert-replace (`HashMap::insert`). -/
def insertBy (eq : κ → κ → Bool) (k : κ) (v : υ) : List (κ × υ) → List (κ × υ)
  | [] => [(k, v)]
  | (k', v') :: t => if eq k k' then (k, v) :: t else (k', v') :: insertBy eq k v t

/-!
## `numeric_counter.rs`
-/

/-- A parsed numeric prefix (`NumericPrefix` in the source).
`consumed_len` is in UTF-8 bytes, as in the source. -/
structure NumericPrefixInfo : Type where
  value : Int
  ascii_digits : Str
  consumed_len : Nat
deriving DecidableEq, Repr

/-- One counter definition (`CounterDef`). -/
structure CounterDef : Type where
  canonical : Str
  aliases : List Str
  surfaces : List Str

/-- The counter table (`COUNTER_DEFS`), verbatim from the source. -/
def COUNTER_DEFS : List CounterDef :=
  [ ⟨strL "ひき", [strL "ひき", strL "びき", strL "ぴき"], [strL "匹"]⟩
  , ⟨strL "にん", [strL "にん"], [strL "人"]⟩
  , ⟨strL "ほん", [strL "ほん", strL "ぼん", strL "ぽん"], [strL "本"]⟩
  , ⟨strL "まい", [strL "まい"], [strL "枚"]⟩
  , ⟨strL "だい", [strL "だい"], [strL "台"]⟩
  , ⟨strL "かい", [strL "かい"], [strL "回"]⟩
  , ⟨strL "かいめ", [strL "かいめ"], [strL "回目"]⟩
  , ⟨strL "こ", [strL "こ"], [strL "個"]⟩
  , ⟨strL "さつ", [strL "さつ"], [strL "冊"]⟩
  , ⟨strL "とう", [strL "とう"], [strL "頭"]⟩
  , ⟨strL "わ", [strL "わ"], [strL "羽"]⟩
  , ⟨strL "ちゃく", [strL "ちゃく"], [strL "着"]⟩
  , ⟨strL "けん", [strL "けん"], [strL "件"]⟩
  , ⟨strL "しゅう", [strL "しゅう"], [strL "週"]⟩
  , ⟨strL "しゅうかん", [strL "しゅうかん"], [strL "週間"]⟩
  , ⟨strL "ねん", [strL "ねん"], [strL "年"]⟩
  , ⟨strL "かげつ", [strL "かげつ"], [strL "か月", strL "ヶ月", strL "箇月"]⟩
  , ⟨strL "にち", [strL "にち"], [strL "日"]⟩
  , ⟨strL "じ", [strL "じ"], [strL "時"]⟩
  , ⟨strL "ふん", [strL "ふん", strL "ぷん"], [strL "分"]⟩
  , ⟨strL "びょう", [strL "びょう"], [strL "秒"]⟩
  , ⟨strL "さい", [strL "さい"], [strL "歳", strL "才"]⟩
  , ⟨strL "ど", [strL "ど"], [strL "度"]⟩
  , ⟨strL "ばん", [strL "ばん"], [strL "番"]⟩
  , ⟨strL "えん", [strL "えん"], [strL "円"]⟩ ]

/-- `collect_counter_yomi_aliases`: all aliases, in first-occurrence order. -/
def collect_counter_yomi_aliases : List Str :=
  COUNTER_DEFS.foldl
    (fun acc d =>
      d.aliases.foldl (fun acc a => if acc.contains a then acc else acc ++ [a]) acc)
    []

/-- `counter_yomi_aliases` (the `OnceLock` caching is irrelevant here). -/
def counter_yomi_aliases : List Str := collect_counter_yomi_aliases

def KANA_THOUSANDS : List (Str × Int) :=
  [ (strL "きゅうせん", 9000), (strL "はっせん", 8000), (strL "ななせん", 7000)
  , (strL "ろくせん", 6000), (strL "ごせん", 5000), (strL "よんせん", 4000)
  , (strL "さんぜん", 3000), (strL "にせん", 2000), (strL "いっせん", 1000)
  , (strL "せん", 1000), (strL "しせん", 4000) ]

def KANA_HUNDREDS : List (Str × Int) :=
  [ (strL "きゅうひゃく", 900), (strL "はっぴゃく", 800), (strL "ななひゃく", 700)
  , (strL "ろっぴゃく", 600), (strL "ごひゃく", 500), (strL "よんひゃく", 400)
  , (strL "さんびゃく", 300), (strL "にひゃく", 200), (strL "いっぴゃく", 100)
  , (strL "ひゃく", 100), (strL "ひゃっ", 100), (strL "しひゃく", 400) ]

def KANA_TENS : List (Str × Int) :=
  [ (strL "きゅうじゅう", 90), (strL "はちじゅう", 80), (strL "ななじゅう", 70)
  , (strL "ろくじゅう", 60), (strL "ごじゅう", 50), (strL "よんじゅう", 40)
  , (strL "さんじゅう", 30), (strL "にじゅう", 20), (strL "いちじゅう", 10)
  , (strL "じゅう", 10), (strL "じゅっ", 10), (strL "しじゅう", 40) ]

def KANA_ONES : List (Str × Int) :=
  [ (strL "ぜろ", 0), (strL "れい", 0), (strL "きゅう", 9), (strL "く", 9)
  , (strL "はち", 8), (strL "なな", 7), (strL "しち", 7), (strL "ろく", 6)
  , (strL "ご", 5), (strL "よん", 4), (strL "し", 4), (strL "さん", 3)
  , (strL "に", 2), (strL "いち", 1), (strL "いっ", 1) ]

/-- `fullwidth_to_ascii`. -/
def fullwidth_to_ascii (c : Char) : Option Char :=
  if '０' ≤ c ∧ c ≤ '９' then
    some (Char.ofNat (c.toNat - '０'.toNat + '0'.toNat))
  else none

def kanji_digit_value (c : Char) : Option Int :=
  if c = '零' ∨ c = '〇' then some 0
  else if c = '一' then some 1
  else if c = '二' then some 2
  else if c = '三' then some 3
  else if c = '四' then some 4
  else if c = '五' then some 5
  else if c = '六' then some 6
  else if c = '七' then some 7
  else if c = '八' then some 8
  else if c = '九' then some 9
  else none

def kanji_small_unit_value (c : Char) : Option Int :=
  if c = '十' then some 10
  else if c = '百' then some 100
  else if c = '千' then some 1000
  else none

def kanji_large_unit_value (c : Char) : Option Int :=
  if c = '万' then some (10 ^ 4)
  else if c = '億' then some (10 ^ 8)
  else if c = '兆' then some (10 ^ 12)
  else if c = '京' then some (10 ^ 16)
  else none

def is_kanji_numeral_char (c : Char) : Bool :=
  (kanji_digit_value c).isSome || (kanji_small_unit_value c).isSome
    || (kanji_large_unit_value c).isSome

/-- `i64::MAX`. -/
def i64Max : Int := 2 ^ 63 - 1

/-- The digit-accumulating loop of `parse_ascii_or_fullwidth_digits_prefix`:
returns the accumulated ASCII digits and the consumed original characters. -/
def digitScan : Str → Str × Str
  | [] => ([], [])
  | c :: t =>
    if c.isDigit then
      let (a, consumed) := digitScan t
      (c :: a, c :: consumed)
    else
      match fullwidth_to_ascii c with
      | some a =>
        let (as_, consumed) := digitScan t
        (a :: as_, c :: consumed)
      | none => ([], [])

/-- Numeric value of a list of ASCII digits. -/
def digitsToNat : Str → Nat :=
  List.foldl (fun n c => n * 10 + (c.toNat - '0'.toNat)) 0

/-- `parse_ascii_or_fullwidth_digits_prefix` (renamed to avoid a reserved
suffix): longest prefix of ASCII/full-width digits; `parse::<i64>` fails
(returns `None`) past `i64::MAX`. -/
def parse_ascii_or_fullwidth_digits_pfx (s : Str) : Option NumericPrefixInfo :=
  let (ascii, consumed) := digitScan s
  if ascii = [] then none
  else
    let v : Int := (digitsToNat ascii : Int)
    if v ≤ i64Max then some ⟨v, ascii, utf8Len consumed⟩ else none

/-- Decimal digits of a non-negative integer (`i64::to_string`). -/
def intToDigits (v : Int) : Str := (toString v.toNat).data

/-- The no-unit branch of `parse_kanji_number_exact`: positional digits with
`checked_mul`/`checked_add` (`None` past `i64::MAX`). -/
def kanjiFoldDigits : Str → Int → Option Int
  | [], v => some v
  | c :: t, v =>
    match kanji_digit_value c with
    | none => none
    | some d =>
      let v' := v * 10 + d
      if v' ≤ i64Max then kanjiFoldDigits t v' else none

/-- The with-unit accumulation loop of `parse_kanji_number_exact`.
State: `(total, section, digit)` (the source's `i128` accumulators,
modelled as unbounded integers; the `i64::try_from` bound check is applied
by the caller, as in the source). -/
def kanjiFoldUnits : Str → Int × Int × Int → Option (Int × Int × Int)
  | [], st => some st
  | c :: t, (total, sect, digit) =>
    match kanji_digit_value c with
    | some d => kanjiFoldUnits t (total, sect, d)
    | none =>
      match kanji_small_unit_value c with
      | some u =>
        let base := if digit = 0 then 1 else digit
        kanjiFoldUnits t (total, sect + base * u, 0)
      | none =>
        match kanji_large_unit_value c with
        | some u =>
          let base := sect + digit
          let block := if base = 0 then 1 else base
          kanjiFoldUnits t (total + block * u, 0, 0)
        | none => none

/-- `parse_kanji_number_exact`. -/
def parse_kanji_number_exact (s : Str) : Option Int :=
  if s = [] then none
  else if s.any (fun c => ! is_kanji_numeral_char c) then none
  else if ! s.any (fun c =>
      (kanji_small_unit_value c).isSome || (kanji_large_unit_value c).isSome) then
    kanjiFoldDigits s 0
  else
    match kanjiFoldUnits s (0, 0, 0) with
    | none => none
    | some (total, sect, digit) =>
      let r := total + sect + digit
      if -(2 ^ 63) ≤ r ∧ r ≤ i64Max then some r else none

/-- The shrink-from-the-right loop of `parse_kanji_number_prefix`:
try to parse the whole prefix, dropping the last character on failure.
(Structural recursion on a fuel equal to the prefix length, which the
loop never exhausts: each step drops exactly one character.) -/
def kanjiShrinkGo : Nat → Str → Option NumericPrefixInfo
  | 0, _ => none
  | _, [] => none
  | fuel + 1, c :: t =>
    match parse_kanji_number_exact (c :: t) with
    | some v => some ⟨v, intToDigits v, utf8Len (c :: t)⟩
    | none => kanjiShrinkGo fuel (c :: t).dropLast

def kanjiShrink (pref : Str) : Option NumericPrefixInfo :=
  kanjiShrinkGo pref.length pref

/-- `parse_kanji_number_prefix` (renamed to avoid a reserved suffix). -/
def parse_kanji_number_pfx (s : Str) : Option NumericPrefixInfo :=
  kanjiShrink (s.takeWhile is_kanji_numeral_char)

/-- `longest_match`: the longest token of the table that is a prefix of
`s`, with its value (ties by byte length cannot occur between distinct
prefixes of the same string). -/
def longest_match (s : Str) (table : List (Str × Int)) : Option (Str × Int) :=
  table.foldl
    (fun best (tv : Str × Int) =>
      if tv.1.isPrefixOf s then
        match best with
        | some (b, _) => if utf8Len tv.1 > utf8Len b then some tv else best
        | none => some tv
      else best)
    none

/-- One table step of `parse_kana_under_10000_exact`. -/
def kanaTableStep (table : List (Str × Int)) : Str × Int × Bool → Str × Int × Bool
  | (rest, value, consumed) =>
    match longest_match rest table with
    | some (tok, v) => (rest.drop tok.length, value + v, true)
    | none => (rest, value, consumed)

/-- `parse_kana_under_10000_exact`. -/
def parse_kana_under_10000_exact (s : Str) : Option Int :=
  if s = [] then none
  else
    let st := kanaTableStep KANA_ONES
      (kanaTableStep KANA_TENS (kanaTableStep KANA_HUNDREDS
        (kanaTableStep KANA_THOUSANDS (s, 0, false))))
    match st with
    | (rest, value, consumed_any) =>
      if rest ≠ [] ∨ ¬ consumed_any then none else some value

/-- First occurrence of `pat` as an infix of `s` (`str::find`): returns the
part before and the part after the occurrence. -/
def splitFirstInfix (pat : Str) : Str → Option (Str × Str)
  | [] => if pat.isPrefixOf [] then some ([], ([] : Str).drop pat.length) else none
  | c :: t =>
    if pat.isPrefixOf (c :: t) then some ([], (c :: t).drop pat.length)
    else (splitFirstInfix pat t).map (fun p => (c :: p.1, p.2))

/-- One large-unit step of `parse_kana_number_exact`
(`ちょう` / `おく` / `まん`).  A missing unit is skipped; a malformed
block aborts. -/
def kanaLargeStep (unit : Str × Int) : Str × Int × Bool → Option (Str × Int × Bool)
  | (rest, total, consumed_large) =>
    match splitFirstInfix unit.1 rest with
    | none => some (rest, total, consumed_large)
    | some (block, after) =>
      if block = [] then some (after, total + unit.2, true)
      else
        match parse_kana_under_10000_exact block with
        | none => none
        | some bv => some (after, total + bv * unit.2, true)

/-- `parse_kana_number_exact`. -/
def parse_kana_number_exact (s : Str) : Option Int :=
  if s = [] then none
  else
    match (kanaLargeStep (strL "ちょう", 10 ^ 12) (s, 0, false)).bind
        (fun st => (kanaLargeStep (strL "おく", 10 ^ 8) st).bind
          (kanaLargeStep (strL "まん", 10 ^ 4))) with
    | none => none
    | some (rest, total, consumed_large) =>
      if rest ≠ [] then
        match parse_kana_under_10000_exact rest with
        | none => none
        | some v =>
          let r := total + v
          if -(2 ^ 63) ≤ r ∧ r ≤ i64Max then some r else none
      else if ¬ consumed_large then none
      else if -(2 ^ 63) ≤ total ∧ total ≤ i64Max then some total else none

/-- `parse_numeric_prefix_surface`. -/
def parse_numeric_prefix_surface (s : Str) : Option NumericPrefixInfo :=
  match parse_ascii_or_fullwidth_digits_pfx s with
  | some p => some p
  | none => parse_kanji_number_pfx s

/-- `parse_numeric_exact_reading`. -/
def parse_numeric_exact_reading (s : Str) : Option Int :=
  match parse_ascii_or_fullwidth_digits_pfx s with
  | some p => if p.consumed_len = utf8Len s then some p.value else
      match parse_kanji_number_pfx s with
      | some q => if q.consumed_len = utf8Len s then some q.value
          else parse_kana_number_exact s
      | none => parse_kana_number_exact s
  | none =>
    match parse_kanji_number_pfx s with
    | some q => if q.consumed_len = utf8Len s then some q.value
        else parse_kana_number_exact s
    | none => parse_kana_number_exact s

def AMBIGUOUS_SINGLE_CHAR_NUMERALS : List Str :=
  [strL "に", strL "し", strL "ご", strL "く"]

def MIN_COUNTER_LEN_FOR_KANA_NUMERIC : Nat := 2

/-- `parse_kana_numeric_prefix_before_counter`: iterate all split points
after at least one character, keeping the *last* successful parse. -/
def parse_kana_numeric_prefix_before_counter (s : Str) : Option NumericPrefixInfo :=
  (List.range s.length).foldl
    (fun best split =>
      if split = 0 then best
      else
        let pre := s.take split
        let suffix := s.drop split
        let matched_counter := counter_yomi_aliases.any
          (fun a => suffix = a ∧ a.length ≥ MIN_COUNTER_LEN_FOR_KANA_NUMERIC)
        if ¬ matched_counter then best
        else if AMBIGUOUS_SINGLE_CHAR_NUMERALS.contains pre then best
        else
          match parse_kana_number_exact pre with
          | some v => some ⟨v, intToDigits v, utf8Len pre⟩
          | none => best)
    none

/-- `normalize_counter_yomi`. -/
def normalize_counter_yomi (yomi : Str) : Option Str :=
  (COUNTER_DEFS.find? (fun d => d.aliases.contains yomi)).map (·.canonical)

/-- `counter_surfaces_for`. -/
def counter_surfaces_for (canonical_yomi : Str) : Option (List Str) :=
  (COUNTER_DEFS.find? (fun d => d.canonical = canonical_yomi)).map (·.surfaces)

/-- Split a key at its first `'/'` (`key.find('/')?` plus the two slices). -/
def splitOnFirstSlash : Str → Option (Str × Str)
  | [] => none
  | c :: t =>
    if c = '/' then some ([], t)
    else (splitOnFirstSlash t).map (fun p => (c :: p.1, p.2))

/-- `reading.strip_suffix(alias)`. -/
def stripSuffixOpt (s pat : Str) : Option Str :=
  if pat.isSuffixOf s then some (s.take (s.length - pat.length)) else none

/-- The alias-search loop of `normalize_counter_key_for_lm`: the first alias
that strips a non-empty, numerically-parsable reading prefix and has a
canonical form wins. -/
def findCanonicalYomi (reading : Str) : List Str → Option Str
  | [] => none
  | a :: rest =>
    match stripSuffixOpt reading a with
    | some num_reading =>
      if num_reading = [] then findCanonicalYomi reading rest
      else if (parse_numeric_exact_reading num_reading).isSome then
        match normalize_counter_yomi a with
        | some c => some c
        | none => findCanonicalYomi reading rest
      else findCanonicalYomi reading rest
    | none => findCanonicalYomi reading rest

/-- `normalize_counter_key_for_lm`. -/
def normalize_counter_key_for_lm (key : Str) : Option Str :=
  match splitOnFirstSlash key with
  | none => none
  | some (surface, reading) =>
    match parse_numeric_prefix_surface surface with
    | none => none
    | some p =>
      if p.consumed_len ≥ utf8Len surface then none
      else
        match findCanonicalYomi reading counter_yomi_aliases with
        | none => none
        | some canonical_yomi =>
          match counter_surfaces_for canonical_yomi with
          | none => none
          | some allowed_surfaces =>
            if allowed_surfaces.contains (dropUtf8 p.consumed_len surface) then
              some (strL "<NUM>" ++ dropUtf8 p.consumed_len surface ++ '/' ::
                (strL "<NUM>" ++ canonical_yomi))
            else none

/-- The normalizer as its call sites use it:
`normalize_counter_key_for_lm(key).unwrap_or(key)`. -/
def normalize_counter_key_or_keep (key : Str) : Str :=
  (normalize_counter_key_for_lm key).getD key

/-!
## `graph/graph_builder.rs` — `normalize_surface_for_lm`

The source counts leading ASCII-digit *bytes* with
`surface.bytes().take_while(|b| b.is_ascii_digit())`; since every byte of a
multi-byte character is ≥ 0x80 this equals the number of leading ASCII-digit
*characters*, and the slice boundary is a character boundary, so the
char-level rendering below is exact.
-/

/-- `normalize_surface_for_lm` (from `graph/graph_builder.rs`). -/
def normalize_surface_for_lm (key : Str) : Option Str :=
  match splitOnFirstSlash key with
  | none => none
  | some (surface, reading) =>
    if (surface.takeWhile Char.isDigit).length = 0 then none
    else if surface.drop (surface.takeWhile Char.isDigit).length = [] then none
    else
      some (strL "<NUM>" ++ surface.drop (surface.takeWhile Char.isDigit).length ++ '/' ::
        (strL "<NUM>" ++ reading.drop (reading.takeWhile Char.isDigit).length))

/-!
## Lemmas about the key normalizers (claims C6 and C7)
-/

theorem splitOnFirstSlash_append_no_slash (a b : Str) (h : '/' ∉ a) :
    splitOnFirstSlash (a ++ '/' :: b) = some (a, b) := by
  induction a with
  | nil => simp [splitOnFirstSlash]
  | cons c t ih =>
    have hc : c ≠ '/' := fun e => h (e ▸ List.mem_cons_self c t)
    have ht : '/' ∉ t := fun m => h (List.mem_cons_of_mem c m)
    simp [splitOnFirstSlash, hc, ih ht]

theorem splitOnFirstSlash_some_head {c : Char} {t s r : Str}
    (h : splitOnFirstSlash (c :: t) = some (s, r)) (hc : c ≠ '/') :
    ∃ s', s = c :: s' := by
  simp only [splitOnFirstSlash, if_neg hc, Option.map_eq_some'] at h
  obtain ⟨⟨s1, r1⟩, -, hp⟩ := h
  cases hp
  exact ⟨s1, rfl⟩

theorem parse_ascii_pfx_lt (t : Str) :
    parse_ascii_or_fullwidth_digits_pfx ('<' :: t) = none := rfl

theorem parse_kanji_pfx_lt (t : Str) :
    parse_kanji_number_pfx ('<' :: t) = none := by
  have h : is_kanji_numeral_char '<' = false := by decide
  simp [parse_kanji_number_pfx, List.takeWhile, h, kanjiShrink, kanjiShrinkGo]

theorem parse_numeric_prefix_surface_lt (t : Str) :
    parse_numeric_prefix_surface ('<' :: t) = none := by
  simp [parse_numeric_prefix_surface, parse_ascii_pfx_lt, parse_kanji_pfx_lt]

theorem normalize_counter_key_lt_head (t : Str) :
    normalize_counter_key_for_lm ('<' :: t) = none := by
  unfold normalize_counter_key_for_lm
  cases h : splitOnFirstSlash ('<' :: t) with
  | none => rfl
  | some p =>
    obtain ⟨s, r⟩ := p
    obtain ⟨s', rfl⟩ := splitOnFirstSlash_some_head h (by decide)
    simp [parse_numeric_prefix_surface_lt]

theorem normalize_counter_key_some_shape {key r : Str}
    (h : normalize_counter_key_for_lm key = some r) : ∃ t, r = '<' :: t := by
  unfold normalize_counter_key_for_lm at h
  split at h
  · exact absurd h (by simp)
  · split at h
    · exact absurd h (by simp)
    · split at h
      · exact absurd h (by simp)
      · split at h
        · exact absurd h (by simp)
        · split at h
          · exact absurd h (by simp)
          · split at h
            · exact ⟨_, (Option.some_injective _ h).symm⟩
            · exact absurd h (by simp)

/-- Claim C6: the counter-key normalization `normalize_counter_key_for_lm`
is idempotent: for every key, applying the normalizer (with the
`unwrap_or(key)` fallback every call site uses) to its own output yields
the same result as applying it once.  The reason is that every normalized
key starts with the literal `<NUM>`, whose leading `<` defeats every
numeric-prefix parser, so an already-normalized key is never rewritten. -/
theorem c6_normalize_counter_key_idempotent (key : Str) :
    normalize_counter_key_or_keep (normalize_counter_key_or_keep key) =
      normalize_counter_key_or_keep key := by
  unfold normalize_counter_key_or_keep
  cases h : normalize_counter_key_for_lm key with
  | none => simp [h]
  | some r =>
    obtain ⟨t, rfl⟩ := normalize_counter_key_some_shape h
    simp [normalize_counter_key_lt_head]

theorem takeWhile_append_eq (p : Char → Bool) (l1 l2 : Str)
    (h1 : ∀ c ∈ l1, p c = true)
    (h2 : ∀ c ∈ l2.take 1, p c = false) :
    (l1 ++ l2).takeWhile p = l1 := by
  induction l1 with
  | nil =>
    cases l2 with
    | nil => rfl
    | cons c t => simp [List.takeWhile, h2 c (by simp)]
  | cons c t ih =>
    have hc : p c = true := h1 c (List.mem_cons_self c t)
    simp [List.takeWhile, hc, ih (fun x hx => h1 x (List.mem_cons_of_mem c hx))]

theorem digitScan_all_digits (l : Str) (h : ∀ c ∈ l, c.isDigit = true) :
    digitScan l = (l, l) := by
  induction l with
  | nil => rfl
  | cons c t ih =>
    have hc : c.isDigit = true := h c (List.mem_cons_self c t)
    simp [digitScan, hc, ih (fun x hx => h x (List.mem_cons_of_mem c hx))]

theorem not_kanji_of_isDigit (c : Char) (h : c.isDigit = true) :
    is_kanji_numeral_char c = false := by
  have hne : ∀ X : Char, X.isDigit = false → c ≠ X := by
    intro X hX e
    rw [e, hX] at h
    exact Bool.false_ne_true h
  unfold is_kanji_numeral_char kanji_digit_value kanji_small_unit_value
    kanji_large_unit_value
  have h0 : ¬(c = '零' ∨ c = '〇') := by
    rintro (rfl | rfl) <;> exact absurd h (by decide)
  simp only [h0, hne '一' (by decide), hne '二' (by decide), hne '三' (by decide),
    hne '四' (by decide), hne '五' (by decide), hne '六' (by decide),
    hne '七' (by decide), hne '八' (by decide), hne '九' (by decide),
    hne '十' (by decide), hne '百' (by decide), hne '千' (by decide),
    hne '万' (by decide), hne '億' (by decide), hne '兆' (by decide),
    hne '京' (by decide), if_false, if_neg, Option.isSome_none, Bool.or_self]

/-- Both LM-key normalizers return `none` on a key whose surface is a
non-empty run of ASCII digits with nothing after it. -/
theorem normalizers_none_of_all_digit (digits reading : Str)
    (hne : digits ≠ []) (hd : ∀ c ∈ digits, c.isDigit = true) :
    normalize_surface_for_lm (digits ++ '/' :: reading) = none ∧
    normalize_counter_key_for_lm (digits ++ '/' :: reading) = none := by
  have hslash : '/' ∉ digits := fun m => by
    have := hd '/' m
    exact absurd this (by decide)
  have hsplit := splitOnFirstSlash_append_no_slash digits reading hslash
  have htake : digits.takeWhile Char.isDigit = digits := by
    have := takeWhile_append_eq Char.isDigit digits [] hd (fun c hc => by simp at hc)
    simpa using this
  have hlen : digits.length ≠ 0 := fun e => hne (List.length_eq_zero.mp e)
  constructor
  · unfold normalize_surface_for_lm
    rw [hsplit]
    simp [htake, hlen, List.drop_length]
  · unfold normalize_counter_key_for_lm
    rw [hsplit]
    have hscan : digitScan digits = (digits, digits) := digitScan_all_digits digits hd
    by_cases hmax : (digitsToNat digits : Int) ≤ i64Max
    · have : parse_numeric_prefix_surface digits =
          some ⟨(digitsToNat digits : Int), digits, utf8Len digits⟩ := by
        unfold parse_numeric_prefix_surface parse_ascii_or_fullwidth_digits_pfx
        rw [hscan]
        simp [hne, hmax]
      simp [this]
    · have hascii : parse_ascii_or_fullwidth_digits_pfx digits = none := by
        unfold parse_ascii_or_fullwidth_digits_pfx
        rw [hscan]
        simp [hne, hmax]
      have hkanji : parse_kanji_number_pfx digits = none := by
        unfold parse_kanji_number_pfx
        cases digits with
        | nil => exact absurd rfl hne
        | cons c t =>
          have : is_kanji_numeral_char c = false :=
            not_kanji_of_isDigit c (hd c (List.mem_cons_self c t))
          simp [List.takeWhile, this, kanjiShrink, kanjiShrinkGo]
      have : parse_numeric_prefix_surface digits = none := by
        unfold parse_numeric_prefix_surface
        simp [hascii, hkanji]
      simp [this]

/-- A surface of ASCII digits followed by a non-empty non-digit suffix is
rewritten by `normalize_surface_for_lm` to the `<NUM>`-prefixed key. -/
theorem normalize_surface_rewrites (digits suffix reading : Str)
    (hne : digits ≠ []) (hd : ∀ c ∈ digits, c.isDigit = true)
    (hs : suffix ≠ []) (hh : ∀ c ∈ suffix.take 1, c.isDigit = false)
    (hslash : '/' ∉ suffix) :
    normalize_surface_for_lm (digits ++ suffix ++ '/' :: reading) =
      some (strL "<NUM>" ++ suffix ++ '/' ::
        (strL "<NUM>" ++ reading.drop (reading.takeWhile Char.isDigit).length)) := by
  have hslashAll : '/' ∉ digits ++ suffix := by
    intro m
    rcases List.mem_append.mp m with m1 | m2
    · exact absurd (hd '/' m1) (by decide)
    · exact hslash m2
  have hsplit := splitOnFirstSlash_append_no_slash (digits ++ suffix) reading hslashAll
  have htake : (digits ++ suffix).takeWhile Char.isDigit = digits :=
    takeWhile_append_eq Char.isDigit digits suffix hd hh
  have hlen : digits.length ≠ 0 := fun e => hne (List.length_eq_zero.mp e)
  unfold normalize_surface_for_lm
  rw [hsplit]
  simp [htake, hlen, List.drop_left, hs]

/-- Claim C7: for every key `surface/reading` whose surface is a bare run
of ASCII digits (no non-empty suffix after the numeric prefix), both
LM-key normalizers (`normalize_surface_for_lm` of the graph builder and
`normalize_counter_key_for_lm` of the counter module) return `None`, so a
bare all-digit token is never rewritten to a `<NUM>`-normalized key; a
surface of digits followed by a non-empty (non-digit, slash-free) suffix
is rewritten by `normalize_surface_for_lm` to the `<NUM>`-prefixed key. -/
theorem c7_bare_digit_guardrail :
    (∀ digits reading : Str, digits ≠ [] → (∀ c ∈ digits, c.isDigit = true) →
        normalize_surface_for_lm (digits ++ '/' :: reading) = none ∧
        normalize_counter_key_for_lm (digits ++ '/' :: reading) = none) ∧
    (∀ digits suffix reading : Str, digits ≠ [] →
        (∀ c ∈ digits, c.isDigit = true) →
        suffix ≠ [] → (∀ c ∈ suffix.take 1, c.isDigit = false) → '/' ∉ suffix →
        normalize_surface_for_lm (digits ++ suffix ++ '/' :: reading) =
          some (strL "<NUM>" ++ suffix ++ '/' ::
            (strL "<NUM>" ++ reading.drop (reading.takeWhile Char.isDigit).length))) :=
  ⟨normalizers_none_of_all_digit, normalize_surface_rewrites⟩

/-- Witness for C7, at the keys `12/12` and `90行/90ぎょう`. -/
theorem c7_bare_digit_guardrail_witness :
    normalize_surface_for_lm (strL "12/12") = none ∧
    normalize_counter_key_for_lm (strL "12/12") = none ∧
    normalize_surface_for_lm (strL "90行/90ぎょう") = some (strL "<NUM>行/<NUM>ぎょう") := by
  have h := c7_bare_digit_guardrail
  have e1 : strL "12/12" = strL "12" ++ '/' :: strL "12" := by decide
  have p1 := h.1 (strL "12") (strL "12") (by decide) (by decide)
  have e2 : strL "90行/90ぎょう" = strL "90" ++ strL "行" ++ '/' :: strL "90ぎょう" := by decide
  have p2 := h.2 (strL "90") (strL "行") (strL "90ぎょう") (by decide) (by decide)
    (by decide) (by decide) (by decide)
  refine ⟨?_, ?_, ?_⟩
  · rw [e1]
    exact p1.1
  · rw [e1]
    exact p1.2
  · rw [e2, p2]
    decide

/-!
## `cost.rs` and `graph/candidate.rs` (not present under `src/`)
-/

/-- Modelled from the spec: `cost.rs` is not among the provided sources
(only its callers are).  The spec defines
`calc_cost(count, total, unique) = -log((count + 1) / (total + unique))`.
Since `-log` is strictly decreasing and injective on positive rationals,
we represent the cost by the negated ratio `-((count + 1) / (total +
unique))`, which induces exactly the same comparisons; no claim below
depends on the absolute cost values. -/
def calc_cost (count total unique : Nat) : ℚ :=
  -(((count : ℚ) + 1) / ((total : ℚ) + (unique : ℚ)))

/-- Modelled from the spec: `graph/candidate.rs` is not among the provided
sources (only its users are).  Per §6 of the spec, a candidate is
`Candidate{surface, yomi, cost, compound_word_flag}` with key
`"surface/yomi"`. -/
structure Candidate : Type where
  surface : Str
  yomi : Str
  cost : F
  compound_word : Bool
deriving DecidableEq, Repr

/-- `Candidate::key()`: `"surface/yomi"`. -/
def Candidate.key (c : Candidate) : Str := c.surface ++ '/' :: c.yomi

/-- Modelled from the spec: the ordering used by `strict_results.sort()`
(the `Ord` impl of the missing `candidate.rs`) sorts candidates ascending
by cost (§4.5: "sorted by that node's DP cost ascending"), with the
repository's pervasive `partial_cmp(..).unwrap_or(Equal)` NaN convention. -/
def candidateCompare (a b : Candidate) : Ordering :=
  (F.partialCmp a.cost b.cost).getD Ordering.eq

/-!
## `user_side_data/*.rs` — the three user-learning stores

Each store is embedded verbatim; the cost formula is passed in as an
explicit function argument `calc` so that the *argument order* at each
call site (the subject of claim C8) is visible in the statements: the
source calls `calc_cost(count, self.unique_words, self.total_words)` in
all three stores, while the system LM calls
`calc_cost(wordcnt, self.total_words, self.unique_words)`.
-/

/-- String-keyed count map lookup (`FxHashMap<String, u32>::get`). -/
def wcGet (m : List (Str × Nat)) (k : Str) : Option Nat :=
  lookupBy (fun a b => a = b) k m

def wcInsert (m : List (Str × Nat)) (k : Str) (v : Nat) : List (Str × Nat) :=
  insertBy (fun a b => a = b) k v m

/-- `UniGramUserStats`. -/
structure UniGramUserStats : Type where
  unique_words : Nat
  total_words : Nat
  word_count : List (Str × Nat)
deriving DecidableEq, Repr

/-- `UniGramUserStats::get_cost`, with the cost formula abstracted:
the source returns `calc_cost(count, self.unique_words, self.total_words)`
for a direct hit, else retries with the counter-normalized key. -/
def UniGramUserStats.get_cost (cc : Nat → Nat → Nat → α)
    (s : UniGramUserStats) (key : Str) : Option α :=
  match wcGet s.word_count key with
  | some count => some (cc count s.unique_words s.total_words)
  | none =>
    match normalize_counter_key_for_lm key with
    | none => none
    | some normalized_key =>
      match wcGet s.word_count normalized_key with
      | none => none
      | some count => some (cc count s.unique_words s.total_words)

/-- The shared per-key increment of every `record_entries`: bump the
count, a new key also bumps `unique_words`, every key bumps
`total_words`. -/
def recordKey (unique_words total_words : Nat) (word_count : List (Str × Nat))
    (key : Str) : Nat × Nat × List (Str × Nat) :=
  match wcGet word_count key with
  | some i => (unique_words, total_words + 1, wcInsert word_count key (i + 1))
  | none => (unique_words + 1, total_words + 1, wcInsert word_count key 1)

/-- `UniGramUserStats::record_entries`. -/
def UniGramUserStats.record_entries (s : UniGramUserStats)
    (candidates : List Candidate) : UniGramUserStats :=
  candidates.foldl
    (fun s c =>
      let key := normalize_counter_key_or_keep c.key
      match recordKey s.unique_words s.total_words s.word_count key with
      | (u, t, w) => ⟨u, t, w⟩)
    s

/-- `BiGramUserStats`. -/
structure BiGramUserStats : Type where
  unique_words : Nat
  total_words : Nat
  word_count : List (Str × Nat)
deriving DecidableEq, Repr

/-- The TAB-joined bigram key `key1 ∥ '\t' ∥ key2`. -/
def tabKey (key1 key2 : Str) : Str := key1 ++ '\t' :: key2

/-- `BiGramUserStats::get_cost`: direct hit on `key1\tkey2`, else retry
with both keys counter-normalized — but only if normalization changed at
least one of them. -/
def BiGramUserStats.get_cost (cc : Nat → Nat → Nat → α)
    (s : BiGramUserStats) (key1 key2 : Str) : Option α :=
  match wcGet s.word_count (tabKey key1 key2) with
  | some count => some (cc count s.unique_words s.total_words)
  | none =>
    if normalize_counter_key_or_keep key1 = key1 ∧
        normalize_counter_key_or_keep key2 = key2 then none
    else
      match wcGet s.word_count (tabKey (normalize_counter_key_or_keep key1)
          (normalize_counter_key_or_keep key2)) with
      | none => none
      | some count => some (cc count s.unique_words s.total_words)

/-- `BiGramUserStats::record_entries`: adjacent pairs, skipped entirely
when fewer than 2 candidates are given. -/
def BiGramUserStats.record_entries (s : BiGramUserStats)
    (candidates : List Candidate) : BiGramUserStats :=
  if candidates.length < 2 then s
  else
    (candidates.zip candidates.tail).foldl
      (fun s p =>
        let key := tabKey (normalize_counter_key_or_keep p.1.key)
          (normalize_counter_key_or_keep p.2.key)
        match recordKey s.unique_words s.total_words s.word_count key with
        | (u, t, w) => ⟨u, t, w⟩)
      s

/-- `SkipBigramUserStats`. -/
structure SkipBigramUserStats : Type where
  unique_words : Nat
  total_words : Nat
  word_count : List (Str × Nat)
deriving DecidableEq, Repr

/-- `SkipBigramUserStats::get_cost` (same shape as the bigram store). -/
def SkipBigramUserStats.get_cost (cc : Nat → Nat → Nat → α)
    (s : SkipBigramUserStats) (key1 key2 : Str) : Option α :=
  match wcGet s.word_count (tabKey key1 key2) with
  | some count => some (cc count s.unique_words s.total_words)
  | none =>
    if normalize_counter_key_or_keep key1 = key1 ∧
        normalize_counter_key_or_keep key2 = key2 then none
    else
      match wcGet s.word_count (tabKey (normalize_counter_key_or_keep key1)
          (normalize_counter_key_or_keep key2)) with
      | none => none
      | some count => some (cc count s.unique_words s.total_words)

/-- `SkipBigramUserStats::record_entries`: pairs `(i-2, i)`, skipped
entirely when fewer than 3 candidates are given. -/
def SkipBigramUserStats.record_entries (s : SkipBigramUserStats)
    (candidates : List Candidate) : SkipBigramUserStats :=
  if candidates.length < 3 then s
  else
    (candidates.zip (candidates.drop 2)).foldl
      (fun s p =>
        let key := tabKey (normalize_counter_key_or_keep p.1.key)
          (normalize_counter_key_or_keep p.2.key)
        match recordKey s.unique_words s.total_words s.word_count key with
        | (u, t, w) => ⟨u, t, w⟩)
      s

/-!
## `lm/system_unigram_lm.rs` — the packed unigram trie
-/

/-- Raw key bytes (`Vec<u8>` values are 0..255). -/
abbrev Bytes := List Nat

/-- `u32::to_le_bytes` on an `f32` bit pattern. -/
def toLeBytes32 (n : Nat) : Bytes :=
  [n % 256, n / 256 % 256, n / 65536 % 256, n / 16777216 % 256]

/-- `f32::from_le_bytes` (on exactly four bytes). -/
def fromLeBytes32 (b : Bytes) : Nat :=
  match b with
  | [b0, b1, b2, b3] => b0 + 256 * b1 + 65536 * b2 + 16777216 * b3
  | _ => 0

/-- Modelled from the spec: the marisa trie itself is the external
`rsmarisa` crate, not part of this repository.  Per §3 of the spec the id
of a key is "assigned monotonically by trie insertion order" ("the trie's
per-key ordinal"), so the trie is the key list in insertion order and a
key's id is its index. -/
structure Trie : Type where
  keys : List Bytes
deriving DecidableEq, Repr

/-- Modelled from the spec: `Trie::build` keeps the pushed keys in
insertion order. -/
def Trie.build (keyset : List Bytes) : Trie := ⟨keyset⟩

/-- The search loop behind `predictive_search`: the first key (in id
order) that has `query` as a byte prefix, with its id. -/
def psearch (query : Bytes) : Nat → List Bytes → Option (Nat × Bytes)
  | _, [] => none
  | i, k :: ks => if query.isPrefixOf k then some (i, k) else psearch query (i + 1) ks

/-- Modelled from the spec: a single `predictive_search` call returns the
first key extending the query, together with its id. -/
def Trie.predictiveSearch (t : Trie) (query : Bytes) : Option (Nat × Bytes) :=
  psearch query 0 t.keys

/-- `MarisaSystemUnigramLMBuilder::keyset`: every entry is
`word-bytes ∥ 0xFF ∥ f32-LE-score` — the score is modelled by its `u32`
bit pattern.  (Note: no id bytes are written; the stale comment at the top
of the source file notwithstanding.) -/
def MarisaSystemUnigramLMBuilder.keyset (data : List (Bytes × Nat)) : List Bytes :=
  data.map (fun ws => ws.1 ++ 0xff :: toLeBytes32 ws.2)

/-- The key layout that claim C1 (and §3 of the spec) asserts:
`utf8(word) ∥ 0xFF ∥ LE_u24(id) ∥ LE_f32(score)`.  Stated from the spec's
words, for comparison with the keys the builder actually produces. -/
def specClaimedUnigramKey (word : Bytes) (id : Nat) (score : Nat) : Bytes :=
  word ++ 0xff :: ([id % 256, id / 2 ^ 8 % 256, id / 2 ^ 16 % 256] ++ toLeBytes32 score)

/-- `MarisaSystemUnigramLM::find_from_trie`: predictive-search
`word ∥ 0xFF`, locate the first `0xFF` of the found key, and decode the
four following bytes as the little-endian score.  The `assert_ne!` on an
empty word and the panicking 4-byte slice are modelled as `none`. -/
def extractScoreBytes (found : Bytes) : Option Nat :=
  (found.findIdx? (fun b => b = 0xff)).bind (fun idx =>
    if ((found.drop (idx + 1)).take 4).length = 4 then
      some (fromLeBytes32 ((found.drop (idx + 1)).take 4))
    else none)

def find_from_trie (t : Trie) (word : Bytes) : Option (Int × Nat) :=
  if word = [] then none
  else
    (t.predictiveSearch (word ++ [0xff])).bind (fun ik =>
      (extractScoreBytes ik.2).map (fun score => ((ik.1 : Int), score)))

/-- `MarisaSystemUnigramLM` (the loaded scalars plus the trie). -/
structure MarisaSystemUnigramLM : Type where
  trie : Trie
  total_words : Nat
  unique_words : Nat

/-- `MarisaSystemUnigramLM::get_cost`, with the cost formula abstracted
as for the user stores: the source returns
`calc_cost(wordcnt, self.total_words, self.unique_words)`. -/
def MarisaSystemUnigramLM.get_cost (cc : Nat → Nat → Nat → α)
    (lm : MarisaSystemUnigramLM) (wordcnt : Nat) : α :=
  cc wordcnt lm.total_words lm.unique_words

/-- `MarisaSystemUnigramLM::find`. -/
def MarisaSystemUnigramLM.find (lm : MarisaSystemUnigramLM) (word : Bytes) :
    Option (Int × Nat) :=
  find_from_trie lm.trie word

/-!
## Claims C8 and C10
-/

/-- Claim C8: every user-store cost lookup (unigram, bigram, skip-bigram)
that returns a cost computed it as `calc_cost(count, unique_words,
total_words)` — the two scalars in the order *opposite* to the system
unigram LM's `calc_cost(count, total_words, unique_words)` — and this
argument order is the same in all three user stores.  The cost formula is
universally quantified, which pins the argument order itself. -/
theorem c8_user_store_calc_cost_argument_order :
    (∀ (α : Type) (cc : Nat → Nat → Nat → α) (s : UniGramUserStats) (key : Str) (c : α),
        UniGramUserStats.get_cost cc s key = some c →
        ∃ n, c = cc n s.unique_words s.total_words) ∧
    (∀ (α : Type) (cc : Nat → Nat → Nat → α) (s : BiGramUserStats) (k1 k2 : Str) (c : α),
        BiGramUserStats.get_cost cc s k1 k2 = some c →
        ∃ n, c = cc n s.unique_words s.total_words) ∧
    (∀ (α : Type) (cc : Nat → Nat → Nat → α) (s : SkipBigramUserStats) (k1 k2 : Str) (c : α),
        SkipBigramUserStats.get_cost cc s k1 k2 = some c →
        ∃ n, c = cc n s.unique_words s.total_words) ∧
    (∀ (α : Type) (cc : Nat → Nat → Nat → α) (lm : MarisaSystemUnigramLM) (n : Nat),
        MarisaSystemUnigramLM.get_cost cc lm n = cc n lm.total_words lm.unique_words) := by
  refine ⟨?_, ?_, ?_, fun α cc lm n => rfl⟩
  · intro α cc s key c h
    unfold UniGramUserStats.get_cost at h
    split at h
    · exact ⟨_, (Option.some_injective _ h).symm⟩
    · split at h
      · exact absurd h (by simp)
      · split at h
        · exact absurd h (by simp)
        · exact ⟨_, (Option.some_injective _ h).symm⟩
  · intro α cc s k1 k2 c h
    unfold BiGramUserStats.get_cost at h
    split at h
    · exact ⟨_, (Option.some_injective _ h).symm⟩
    · split at h
      · exact absurd h (by simp)
      · split at h
        · exact absurd h (by simp)
        · exact ⟨_, (Option.some_injective _ h).symm⟩
  · intro α cc s k1 k2 c h
    unfold SkipBigramUserStats.get_cost at h
    split at h
    · exact ⟨_, (Option.some_injective _ h).symm⟩
    · split at h
      · exact absurd h (by simp)
      · split at h
        · exact absurd h (by simp)
        · exact ⟨_, (Option.some_injective _ h).symm⟩

/-- Witness for C8: each lookup evaluated on a concrete store, with the
cost formula instantiated by the tupling function, so the argument order
is observable. -/
theorem c8_user_store_calc_cost_argument_order_witness :
    (∃ n, ((2, 3, 7) : Nat × Nat × Nat) = (n, 3, 7)) ∧
    (∃ n, ((5, 1, 9) : Nat × Nat × Nat) = (n, 1, 9)) ∧
    (∃ n, ((4, 2, 8) : Nat × Nat × Nat) = (n, 2, 8)) ∧
    MarisaSystemUnigramLM.get_cost (fun c t u => (c, t, u)) ⟨⟨[]⟩, 11, 13⟩ 6 =
      (6, 11, 13) := by
  refine ⟨?_, ?_, ?_, ?_⟩
  · exact c8_user_store_calc_cost_argument_order.1 _ (fun c u t => (c, u, t))
      ⟨3, 7, [(strL "a", 2)]⟩ (strL "a") (2, 3, 7) rfl
  · exact c8_user_store_calc_cost_argument_order.2.1 _ (fun c u t => (c, u, t))
      ⟨1, 9, [(tabKey (strL "a") (strL "b"), 5)]⟩ (strL "a") (strL "b") (5, 1, 9) rfl
  · exact c8_user_store_calc_cost_argument_order.2.2.1 _ (fun c u t => (c, u, t))
      ⟨2, 8, [(tabKey (strL "a") (strL "b"), 4)]⟩ (strL "a") (strL "b") (4, 2, 8) rfl
  · exact c8_user_store_calc_cost_argument_order.2.2.2 _ (fun c t u => (c, t, u))
      ⟨⟨[]⟩, 11, 13⟩ 6

/-- Claim C10: recording accepted candidates into the user bigram store
with fewer than 2 candidates, or into the skip-bigram store with fewer
than 3, leaves the store unchanged — count map, `unique_words` and
`total_words` all keep their previous values. -/
theorem c10_short_record_entries_no_op :
    (∀ (s : BiGramUserStats) (cs : List Candidate), cs.length < 2 →
        (s.record_entries cs).word_count = s.word_count ∧
        (s.record_entries cs).unique_words = s.unique_words ∧
        (s.record_entries cs).total_words = s.total_words) ∧
    (∀ (s : SkipBigramUserStats) (cs : List Candidate), cs.length < 3 →
        (s.record_entries cs).word_count = s.word_count ∧
        (s.record_entries cs).unique_words = s.unique_words ∧
        (s.record_entries cs).total_words = s.total_words) := by
  constructor
  · intro s cs h
    simp [BiGramUserStats.record_entries, if_pos h]
  · intro s cs h
    simp [SkipBigramUserStats.record_entries, if_pos h]

/-- Witness for C10: a one-candidate list into the bigram store and a
two-candidate list into the skip-bigram store, on a concrete store. -/
theorem c10_short_record_entries_no_op_witness :
    ((BiGramUserStats.record_entries ⟨1, 2, [(strL "x", 1)]⟩
        [⟨strL "私", strL "わたし", F.fin 0, false⟩]).word_count = [(strL "x", 1)] ∧
      (BiGramUserStats.record_entries ⟨1, 2, [(strL "x", 1)]⟩
        [⟨strL "私", strL "わたし", F.fin 0, false⟩]).unique_words = 1 ∧
      (BiGramUserStats.record_entries ⟨1, 2, [(strL "x", 1)]⟩
        [⟨strL "私", strL "わたし", F.fin 0, false⟩]).total_words = 2) ∧
    ((SkipBigramUserStats.record_entries ⟨3, 4, []⟩
        [⟨strL "私", strL "わたし", F.fin 0, false⟩,
         ⟨strL "は", strL "は", F.fin 0, false⟩]).word_count = [] ∧
      (SkipBigramUserStats.record_entries ⟨3, 4, []⟩
        [⟨strL "私", strL "わたし", F.fin 0, false⟩,
         ⟨strL "は", strL "は", F.fin 0, false⟩]).unique_words = 3 ∧
      (SkipBigramUserStats.record_entries ⟨3, 4, []⟩
        [⟨strL "私", strL "わたし", F.fin 0, false⟩,
         ⟨strL "は", strL "は", F.fin 0, false⟩]).total_words = 4) :=
  ⟨c10_short_record_entries_no_op.1 ⟨1, 2, [(strL "x", 1)]⟩ _ (by decide),
   c10_short_record_entries_no_op.2 ⟨3, 4, []⟩ _ (by decide)⟩

/-!
## Claim C1: packed unigram key layout and `find`
-/

theorem ffPrefix_iff (w w' : Bytes) (rest : Bytes)
    (hw : (0xff : Nat) ∉ w) (hw' : (0xff : Nat) ∉ w') :
    (w ++ [0xff]).isPrefixOf (w' ++ 0xff :: rest) = true ↔ w = w' := by
  rw [List.isPrefixOf_iff_prefix]
  constructor
  · intro h
    induction w generalizing w' with
    | nil =>
      cases w' with
      | nil => rfl
      | cons b t =>
        exfalso
        obtain ⟨u, hu⟩ := h
        have hb : b = 0xff := by
          have := congrArg (fun l => l.head?) hu
          simpa using this.symm
        exact hw' (hb ▸ List.mem_cons_self b t)
    | cons a t ih =>
      cases w' with
      | nil =>
        exfalso
        obtain ⟨u, hu⟩ := h
        have ha : a = 0xff := by
          have := congrArg (fun l => l.head?) hu
          simpa using this
        exact hw (ha ▸ List.mem_cons_self a t)
      | cons b t' =>
        obtain ⟨u, hu⟩ := h
        simp only [List.cons_append, List.cons.injEq] at hu
        obtain ⟨hab, htail⟩ := hu
        have ht : t = t' := by
          refine ih t' (fun m => hw (List.mem_cons_of_mem a m))
            (fun m => hw' (hab ▸ List.mem_cons_of_mem b m)) ⟨u, htail⟩
        rw [hab, ht]
  · rintro rfl
    exact ⟨rest, by simp⟩

theorem psearch_keyset (data : List (Bytes × Nat)) (i j : Nat) (w : Bytes) (s : Nat)
    (hget : data.get? i = some (w, s))
    (hff : ∀ p ∈ data, (0xff : Nat) ∉ p.1)
    (hdistinct : data.Pairwise (fun p q => p.1 ≠ q.1)) :
    psearch (w ++ [0xff]) j (MarisaSystemUnigramLMBuilder.keyset data) =
      some (j + i, w ++ 0xff :: toLeBytes32 s) := by
  induction data generalizing i j with
  | nil => simp at hget
  | cons hd rest ih =>
    obtain ⟨w0, s0⟩ := hd
    have hw0ff : (0xff : Nat) ∉ w0 := hff (w0, s0) (List.mem_cons_self _ _)
    cases i with
    | zero =>
      rw [List.get?_cons_zero] at hget
      injection hget with hp
      injection hp with hw1 hs1
      subst hw1
      subst hs1
      have hpre : (w0 ++ [0xff]).isPrefixOf (w0 ++ 0xff :: toLeBytes32 s0) = true :=
        (ffPrefix_iff w0 w0 (toLeBytes32 s0) hw0ff hw0ff).mpr rfl
      simp [MarisaSystemUnigramLMBuilder.keyset, psearch, hpre]
    | succ i' =>
      rw [List.get?_cons_succ] at hget
      have hwmem : (w, s) ∈ rest := List.get?_mem hget
      have hwff : (0xff : Nat) ∉ w := hff (w, s) (List.mem_cons_of_mem _ hwmem)
      have hne : w ≠ w0 := by
        have := (List.pairwise_cons.mp hdistinct).1 (w, s) hwmem
        exact fun e => this e.symm
      have hpre : (w ++ [0xff]).isPrefixOf (w0 ++ 0xff :: toLeBytes32 s0) = false := by
        cases hb : (w ++ [0xff]).isPrefixOf (w0 ++ 0xff :: toLeBytes32 s0) with
        | false => rfl
        | true =>
          exact absurd ((ffPrefix_iff w w0 (toLeBytes32 s0) hwff hw0ff).mp hb) hne
      rw [show j + (i' + 1) = (j + 1) + i' by omega]
      have := ih i' (j + 1) hget
        (fun p hp => hff p (List.mem_cons_of_mem _ hp))
        (List.pairwise_cons.mp hdistinct).2
      simpa [MarisaSystemUnigramLMBuilder.keyset, psearch, hpre] using this

theorem findIdx_ff (w tail : Bytes) (hw : (0xff : Nat) ∉ w) :
    (w ++ 0xff :: tail).findIdx? (fun b => b = 0xff) = some w.length := by
  suffices h : ∀ j, (w ++ 0xff :: tail).findIdx? (fun b => b = 0xff) j =
      some (j + w.length) by
    simpa using h 0
  induction w with
  | nil => intro j; simp [List.findIdx?]
  | cons a t ih =>
    intro j
    have ha : (a = 0xff) = False := by
      simp only [eq_iff_iff, iff_false]
      exact fun e => hw (e ▸ List.mem_cons_self a t)
    have ih' := ih (fun m => hw (List.mem_cons_of_mem a m)) (j + 1)
    simp only [List.cons_append, List.findIdx?, ha, decide_False, Bool.false_eq_true,
      if_false]
    rw [show t.append ((0xff : Nat) :: tail) = t ++ 0xff :: tail from rfl, ih']
    simp only [List.length_cons]
    congr 1
    omega

theorem drop_word_ff (w tail : Bytes) :
    (w ++ 0xff :: tail).drop (w.length + 1) = tail := by
  have h1 : w ++ 0xff :: tail = (w ++ [0xff]) ++ tail := by simp
  have h2 : w.length + 1 = (w ++ [0xff]).length := by simp
  rw [h1, h2, List.drop_left]

theorem fromLe_toLe (s : Nat) (h : s < 2 ^ 32) :
    fromLeBytes32 (toLeBytes32 s) = s := by
  simp only [toLeBytes32, fromLeBytes32]
  have h' : s < 4294967296 := by omega
  omega

theorem extractScoreBytes_key (w : Bytes) (s : Nat) (hwff : (0xff : Nat) ∉ w) :
    extractScoreBytes (w ++ 0xff :: toLeBytes32 s) =
      some (fromLeBytes32 (toLeBytes32 s)) := by
  unfold extractScoreBytes
  rw [findIdx_ff w (toLeBytes32 s) hwff, Option.some_bind, drop_word_ff]
  simp [toLeBytes32]

/-- Claim C1, counterexample: the key the builder actually produces for a
one-word vocabulary is `word ∥ 0xFF ∥ LE_f32(score)` and differs from the
claimed layout `word ∥ 0xFF ∥ LE_u24(id) ∥ LE_f32(score)` — no id bytes
are ever written into the key. -/
theorem c1_counterexample_no_id_bytes :
    MarisaSystemUnigramLMBuilder.keyset [([0x61], 7)] ≠
      [specClaimedUnigramKey [0x61] 0 7] := by decide

/-- Claim C1, amended: every entry of the packed unigram trie has key
bytes `utf8(word) ∥ 0xFF ∥ LE_f32(score)` (with *no* id bytes), and for
every word present in the model — words UTF-8 (hence `0xFF`-free),
pairwise distinct — `find(word)` returns `Some((id, score))` where `id`
is the trie's per-key ordinal and `score` is decoded from the 4 bytes
after the `0xFF` separator. -/
theorem c1_amended_packed_unigram_entry (data : List (Bytes × Nat)) (i : Nat)
    (w : Bytes) (s : Nat)
    (hget : data.get? i = some (w, s))
    (hff : ∀ p ∈ data, (0xff : Nat) ∉ p.1)
    (hdistinct : data.Pairwise (fun p q => p.1 ≠ q.1))
    (hw : w ≠ []) (hs : s < 2 ^ 32) :
    (Trie.build (MarisaSystemUnigramLMBuilder.keyset data)).keys.get? i =
      some (w ++ 0xff :: toLeBytes32 s) ∧
    find_from_trie (Trie.build (MarisaSystemUnigramLMBuilder.keyset data)) w =
      some ((i : Int), s) := by
  have hwff : (0xff : Nat) ∉ w := hff (w, s) (List.get?_mem hget)
  constructor
  · show ((data.map fun ws => ws.1 ++ 0xff :: toLeBytes32 ws.2).get? i) = _
    rw [List.get?_map, hget]
    rfl
  · unfold find_from_trie
    rw [if_neg hw]
    have hps : (Trie.build (MarisaSystemUnigramLMBuilder.keyset data)).predictiveSearch
        (w ++ [0xff]) = some (0 + i, w ++ 0xff :: toLeBytes32 s) :=
      psearch_keyset data i 0 w s hget hff hdistinct
    rw [hps, Option.some_bind, extractScoreBytes_key w s hwff, fromLe_toLe s hs]
    simp

/-- Witness for C1 (amended), on the two-word model `he ↦ 3, wo ↦ 5`. -/
theorem c1_amended_packed_unigram_entry_witness :
    (Trie.build (MarisaSystemUnigramLMBuilder.keyset
        [([104, 101], 3), ([119, 111], 5)])).keys.get? 1 =
      some ([119, 111] ++ 0xff :: toLeBytes32 5) ∧
    find_from_trie (Trie.build (MarisaSystemUnigramLMBuilder.keyset
        [([104, 101], 3), ([119, 111], 5)])) [119, 111] =
      some ((1 : Int), 5) :=
  c1_amended_packed_unigram_entry [([104, 101], 3), ([119, 111], 5)] 1
    [119, 111] 5 (by decide) (by decide) (by decide) (by decide) (by decide)

/-!
## `graph/word_node.rs` and `graph/lattice_graph.rs`
-/

/-- `WordNode`.  `cached_key` is recovered by `WordNode.key` (it is a
cache of `"surface/yomi"` in the source). -/
structure WordNode : Type where
  start_pos : Int
  surface : Str
  yomi : Str
  cost : F
  word_id_and_score : Option (Int × F)
  auto_generated : Bool
deriving DecidableEq, Repr

/-- `WordNode::key()` / the `cached_key` field: `"surface/yomi"`. -/
def WordNode.key (n : WordNode) : Str := n.surface ++ '/' :: n.yomi

/-- The source's `PartialEq for WordNode`: `start_pos`, `surface`, `yomi`
and IEEE equality of `cost` (NaN-cost nodes are unequal to themselves,
exactly as in Rust). This is the equality used by the resolver's hash
maps. -/
def WordNode.req (a b : WordNode) : Bool :=
  decide (a.start_pos = b.start_pos) && decide (a.surface = b.surface) &&
    decide (a.yomi = b.yomi) && F.rustEq a.cost b.cost

/-- Modelled from the spec: `user_side_data/user_data.rs` is not among the
provided sources.  Per §3/§4.4 the user data carries the three n-gram
stores; its unigram/bigram cost lookups delegate to the stores'
`get_cost` on the nodes' `"surface/yomi"` keys, with the concrete
`calc_cost` formula. -/
structure UserData : Type where
  unigram : UniGramUserStats
  bigram : BiGramUserStats

/-- Modelled from the spec: `UserData::get_unigram_cost(node)` =
unigram-store cost of `node.cached_key`. -/
def UserData.get_unigram_cost (ud : UserData) (node : WordNode) : Option F :=
  (UniGramUserStats.get_cost calc_cost ud.unigram node.key).map F.fin

/-- Modelled from the spec: `UserData::get_bigram_cost(prev, node)` =
bigram-store cost of the two cached keys. -/
def UserData.get_bigram_cost (ud : UserData) (prev node : WordNode) : Option F :=
  (BiGramUserStats.get_cost calc_cost ud.bigram prev.key node.key).map F.fin

/-- The `SystemUnigramLM` trait interface as the lattice consumes it. -/
structure SysUnigramLMIface : Type where
  get_cost : Nat → F

/-- The `SystemBigramLM` trait interface as the lattice consumes it. -/
structure SysBigramLMIface : Type where
  get_edge_cost : Int → Int → Option F
  get_default_edge_cost : F

/-- `LatticeGraph` (the `Arc<Mutex<..>>`/`Rc` wrappers carry no logic). -/
structure LatticeGraph : Type where
  yomi : Str
  graph : List (Int × List WordNode)
  user_data : UserData
  system_unigram_lm : SysUnigramLMIface
  system_bigram_lm : SysBigramLMIface

/-- `LatticeGraph::node_list`. -/
def LatticeGraph.node_list (lat : LatticeGraph) (end_pos : Int) :
    Option (List WordNode) :=
  lookupBy (fun a b => a = b) end_pos lat.graph

/-- `LatticeGraph::get_prev_nodes`: the node list keyed by the node's
`start_pos`. -/
def LatticeGraph.get_prev_nodes (lat : LatticeGraph) (node : WordNode) :
    Option (List WordNode) :=
  lookupBy (fun a b => a = b) node.start_pos lat.graph

/-- `LatticeGraph::get`. -/
def LatticeGraph.get (lat : LatticeGraph) (n : Int) : Option (List WordNode) :=
  lookupBy (fun a b => a = b) n lat.graph

/-- `LatticeGraph::get_node_cost` (the `_with_user_data` variant the
resolver calls only differs by holding the user-data lock already). -/
def LatticeGraph.get_node_cost (lat : LatticeGraph) (node : WordNode) : F :=
  match lat.user_data.get_unigram_cost node with
  | some user_cost => user_cost
  | none =>
    match node.word_id_and_score with
    | some (_, system_unigram_cost) => system_unigram_cost
    | none =>
      if utf8Len node.surface < utf8Len node.yomi then
        lat.system_unigram_lm.get_cost 1
      else
        lat.system_unigram_lm.get_cost 0

/-- `LatticeGraph::get_edge_cost`. -/
def LatticeGraph.get_edge_cost (lat : LatticeGraph) (prev node : WordNode) : F :=
  match lat.user_data.get_bigram_cost prev node with
  | some cost => cost
  | none =>
    match prev.word_id_and_score with
    | none => lat.system_bigram_lm.get_default_edge_cost
    | some (prev_id, _) =>
      match node.word_id_and_score with
      | none => lat.system_bigram_lm.get_default_edge_cost
      | some (node_id, _) =>
        match lat.system_bigram_lm.get_edge_cost prev_id node_id with
        | some cost => cost
        | none => lat.system_bigram_lm.get_default_edge_cost

/-- `LatticeGraph::get_default_edge_cost`. -/
def LatticeGraph.get_default_edge_cost (lat : LatticeGraph) : F :=
  lat.system_bigram_lm.get_default_edge_cost

/-- Claim C3: the node cost used by the DP follows exactly this priority:
a user-unigram hit on `n.cached_key` (directly or via the
counter-normalized key) wins; else a stored `word_id_and_score` returns
its score; else `unigram.get_cost(1)` when the surface is strictly
shorter (in bytes) than the reading; else `unigram.get_cost(0)`. -/
theorem c3_node_cost_priority (lat : LatticeGraph) (n : WordNode) :
    ((lat.user_data.get_unigram_cost n).isSome ↔
      ((wcGet lat.user_data.unigram.word_count n.key).isSome ∨
        ∃ nk, normalize_counter_key_for_lm n.key = some nk ∧
          (wcGet lat.user_data.unigram.word_count nk).isSome)) ∧
    (∀ c, lat.user_data.get_unigram_cost n = some c → lat.get_node_cost n = c) ∧
    (lat.user_data.get_unigram_cost n = none →
      ∀ i sc, n.word_id_and_score = some (i, sc) → lat.get_node_cost n = sc) ∧
    (lat.user_data.get_unigram_cost n = none → n.word_id_and_score = none →
      utf8Len n.surface < utf8Len n.yomi →
      lat.get_node_cost n = lat.system_unigram_lm.get_cost 1) ∧
    (lat.user_data.get_unigram_cost n = none → n.word_id_and_score = none →
      ¬ utf8Len n.surface < utf8Len n.yomi →
      lat.get_node_cost n = lat.system_unigram_lm.get_cost 0) := by
  refine ⟨?_, ?_, ?_, ?_, ?_⟩
  · unfold UserData.get_unigram_cost UniGramUserStats.get_cost
    split
    · simp_all
    · split
      · simp_all
      · split
        · simp_all
        · simp_all
  · intro c h
    unfold LatticeGraph.get_node_cost
    rw [h]
  · intro h i sc hw
    unfold LatticeGraph.get_node_cost
    rw [h, hw]
  · intro h hw hlt
    unfold LatticeGraph.get_node_cost
    rw [h, hw, if_pos hlt]
  · intro h hw hlt
    unfold LatticeGraph.get_node_cost
    rw [h, hw, if_neg hlt]

/-- Witness for C3, on a kana-fallback node over an empty user store
(the final `get_cost(0)` branch). -/
theorem c3_node_cost_priority_witness :
    LatticeGraph.get_node_cost
      ⟨strL "あ", [], ⟨⟨0, 0, []⟩, ⟨0, 0, []⟩⟩, ⟨fun c => F.fin c⟩,
        ⟨fun _ _ => none, F.fin 10⟩⟩
      ⟨0, strL "あ", strL "あ", F.fin 0, none, true⟩ = F.fin 0 := by
  have h := (c3_node_cost_priority
    ⟨strL "あ", [], ⟨⟨0, 0, []⟩, ⟨0, 0, []⟩⟩, ⟨fun c => F.fin c⟩,
      ⟨fun _ _ => none, F.fin 10⟩⟩
    ⟨0, strL "あ", strL "あ", F.fin 0, none, true⟩).2.2.2.2
  exact h (by decide) rfl (by decide)

/-!
## `graph/graph_resolver.rs` — the k-best Viterbi resolver

The resolver's `HashMap<&WordNode, _>` maps are keyed by the source's
`PartialEq`/`Hash` on nodes (`WordNode.req`); they are modelled as
association lists with insert-replace.  The two loops that are not
structurally recursive in the source (backtracking, compound breakdown)
take an explicit fuel parameter; the callers pass fuel that the loops can
never exhaust on lattices satisfying the well-formedness invariants of
§3 (every node sits in the list keyed by `start_pos + yomi byte length`),
which is proved below where it matters.
-/

/-- `KBestEntry` (the borrowed `&WordNode` becomes a value). -/
structure KBestEntry : Type where
  cost : F
  prev_node : WordNode
  prev_rank : Nat
deriving DecidableEq, Repr

/-- The comparator of the k-best entry sort in `resolve_k_best`:
`a.cost.partial_cmp(&b.cost).unwrap_or(Ordering::Equal)`. -/
def kBestEntryCompare (a b : KBestEntry) : Ordering :=
  (F.partialCmp a.cost b.cost).getD Ordering.eq

abbrev KBMap := List (WordNode × List KBestEntry)

def kbGet (m : KBMap) (n : WordNode) : Option (List KBestEntry) :=
  lookupBy WordNode.req n m

def kbInsert (m : KBMap) (n : WordNode) (es : List KBestEntry) : KBMap :=
  insertBy WordNode.req n es m

abbrev CostMap := List (WordNode × F)

def cmGet (m : CostMap) (n : WordNode) : Option F :=
  lookupBy WordNode.req n m

/-- The error cases of `resolve_k_best` (each `bail!`/`with_context`). -/
inductive ResolveError : Type where
  | cannotGetPrevNodes (node : WordNode)
  | noValidPreviousNode (node : WordNode)
  | eosNodeNotFound
  | eosNodeListEmpty
  | bosNodeNotFound
  | bosNodeListEmpty
  | eosEntriesNotFound
deriving DecidableEq, Repr

/-- One node of the forward DP: enumerate candidate entries over all
predecessors (each predecessor's k-best entries, or a single cost-0-lineage
fallback entry for nodes without entries, e.g. BOS), sort by cost with the
NaN-tolerant comparator, truncate to `k`, and fail if nothing remains. -/
def dpProcessNode (lat : LatticeGraph) (k : Nat) (kb : KBMap) (node : WordNode) :
    Except ResolveError KBMap :=
  match lat.get_prev_nodes node with
  | none => Except.error (ResolveError.cannotGetPrevNodes node)
  | some prev_nodes =>
    let node_cost := lat.get_node_cost node
    let entries := prev_nodes.bind (fun prev =>
      let edge_cost := lat.get_edge_cost prev node
      match kbGet kb prev with
      | some prev_entries =>
        prev_entries.enum.map (fun re =>
          { cost := F.add (F.add re.2.cost edge_cost) node_cost,
            prev_node := prev, prev_rank := re.1 })
      | none =>
        [{ cost := F.add edge_cost node_cost, prev_node := prev, prev_rank := 0 }])
    let entries := (sortByCmp kBestEntryCompare entries).take k
    if entries.isEmpty then Except.error (ResolveError.noValidPreviousNode node)
    else Except.ok (kbInsert kb node entries)

/-- The positions `1 ..= yomi.len() + 1` the DP iterates. -/
def dpPositions (lat : LatticeGraph) : List Int :=
  (List.range (utf8Len lat.yomi + 1)).map (fun j => (Int.ofNat j + 1))

/-- The forward DP loop of `resolve_k_best` (a missing node list at a
position is skipped, as in the source). -/
def dpLoop (lat : LatticeGraph) (k : Nat) : Except ResolveError KBMap :=
  (dpPositions lat).foldlM
    (fun kb i =>
      match lat.node_list i with
      | none => Except.ok kb
      | some nodes => nodes.foldlM (fun kb node => dpProcessNode lat k kb node) kb)
    []

/-- The `costmap` built after the DP: each node's 1-best cost. -/
def buildCostmap (kb : KBMap) : CostMap :=
  kb.filterMap (fun ne => ne.2.head?.map (fun e => (ne.1, e.cost)))

/-- `BreakDown` (graph_resolver.rs). -/
structure BreakDown : Type where
  node : WordNode
  head_cost : F
  tail_cost : F
deriving DecidableEq, Repr

/-- `Ord for BreakDown`: by `head_cost + tail_cost`, NaN compares equal. -/
def breakDownCompare (a b : BreakDown) : Ordering :=
  (F.partialCmp (F.add a.head_cost a.tail_cost)
    (F.add b.head_cost b.tail_cost)).getD Ordering.eq

/-- `GraphResolver::collect_breakdown_results`.  The `BinaryHeap` the
source iterates has an unspecified iteration order; the model iterates the
(up to 3) retained targets in sorted order — no property proved below
depends on the order.  The structural `fuel` is exhausted only below the
`depth > 4` guard, which the callers' fuel of 6 makes unreachable. -/
def collect_breakdown_results :
    Nat → Str → Nat → Int → Str → Str → LatticeGraph → Int → Nat → CostMap →
      F → Option WordNode → List Candidate
  | 0, _, _, _, _, _, _, _, _, _, _, _ => []
  | fuel + 1, node_yomi, required_len, min_start_pos, cur_surface, cur_yomi,
      lat, end_pos, depth, cost_map, tail_cost, next_node =>
    if depth > 4 then []
    else if utf8Len cur_yomi = utf8Len node_yomi then
      [⟨cur_surface, cur_yomi, tail_cost, true⟩]
    else
      match lat.node_list end_pos with
      | none => []
      | some targets =>
        let targets := (targets.filter (fun cur =>
          decide (min_start_pos ≤ cur.start_pos) && decide (cur.yomi ≠ node_yomi))).map
            (fun f =>
              ({ node := f,
                 head_cost := (cmGet cost_map f).getD F.f32MAX,
                 tail_cost := F.add (F.add tail_cost (lat.get_node_cost f))
                   ((next_node.map (fun nn => lat.get_edge_cost f nn)).getD
                     lat.get_default_edge_cost) } : BreakDown))
        let targets := (sortByCmp breakDownCompare targets).take 3
        targets.bind (fun target =>
          if target.node.yomi = strL "__BOS__" ∨ target.node.yomi = strL "__EOS__" then
            []
          else if required_len < utf8Len target.node.yomi then []
          else
            collect_breakdown_results fuel node_yomi
              (required_len - utf8Len target.node.yomi) min_start_pos
              (target.node.surface ++ cur_surface) (target.node.yomi ++ cur_yomi)
              lat (end_pos - (utf8Len target.node.yomi : Int)) (depth + 1) cost_map
              (F.add tail_cost target.tail_cost) (some target.node))

/-- `GraphResolver::get_candidates`: all same-span alternatives sorted by
1-best DP cost, plus (when fewer than 5) sorted compound breakdowns. -/
def get_candidates (lat : LatticeGraph) (costmap : CostMap) (node : WordNode)
    (end_pos : Int) : List Candidate :=
  match lat.node_list end_pos with
  | none => []
  | some node_list =>
    let strict_results := sortByCmp candidateCompare
      ((node_list.filter (fun alt =>
          decide (alt.start_pos = node.start_pos) &&
            decide (utf8Len alt.yomi = utf8Len node.yomi))).map
        (fun f => ⟨f.surface, f.yomi, (cmGet costmap f).getD F.f32MAX, false⟩))
    if strict_results.length < 5 then
      strict_results ++ sortByCmp candidateCompare
        (collect_breakdown_results 6 node.yomi (utf8Len node.yomi) node.start_pos
          [] [] lat end_pos 0 costmap (F.fin 0) none)
    else strict_results

/-- The backtracking loop of `resolve_k_best`: follow `(prev, prev_rank)`
towards BOS, emitting a clause candidate list for every non-`__EOS__`
node; a missing k-best entry breaks the loop.  The source builds the path
backwards and reverses it; the model emits it in final (forward) order. -/
def backtrack (lat : LatticeGraph) (kb : KBMap) (costmap : CostMap) (bos : WordNode) :
    Nat → WordNode → Nat → List (List Candidate)
  | 0, _, _ => []
  | fuel + 1, cur_node, cur_rank =>
    if WordNode.req cur_node bos then []
    else
      let rest :=
        match kbGet kb cur_node with
        | none => []
        | some entries =>
          match entries.get? cur_rank with
          | some e => backtrack lat kb costmap bos fuel e.prev_node e.prev_rank
          | none =>
            match entries.head? with
            | some e => backtrack lat kb costmap bos fuel e.prev_node e.prev_rank
            | none => []
      if cur_node.surface = strL "__EOS__" then rest
      else
        rest ++ [get_candidates lat costmap cur_node
          (cur_node.start_pos + (utf8Len cur_node.yomi : Int))]

/-- The segmentation pattern used for deduplication: the source hashes
`(0i32, clause.first().yomi.len())` per clause via `filter_map`; the
constant first component is dropped here. -/
def pathPattern (path : List (List Candidate)) : List Nat :=
  path.filterMap (fun clause => clause.head?.map (fun c => utf8Len c.yomi))

/-- `GraphResolver::resolve_k_best`. -/
def resolve_k_best (lat : LatticeGraph) (k : Nat) :
    Except ResolveError (List (List (List Candidate))) :=
  (dpLoop lat k).bind (fun kb =>
    let costmap := buildCostmap kb
    let eos_pos : Int := ((utf8Len lat.yomi + 1 : Nat) : Int)
    match lat.get eos_pos with
    | none => Except.error ResolveError.eosNodeNotFound
    | some eos_list =>
      match eos_list.head? with
      | none => Except.error ResolveError.eosNodeListEmpty
      | some eos =>
        match lat.get 0 with
        | none => Except.error ResolveError.bosNodeNotFound
        | some bos_list =>
          match bos_list.head? with
          | none => Except.error ResolveError.bosNodeListEmpty
          | some bos =>
            match kbGet kb eos with
            | none => Except.error ResolveError.eosEntriesNotFound
            | some eos_entries =>
              let st := eos_entries.foldl
                (fun (st : List (List Nat) × List (List (List Candidate))) e =>
                  let path := backtrack lat kb costmap bos (utf8Len lat.yomi + 2)
                    e.prev_node e.prev_rank
                  let pattern := pathPattern path
                  if st.1.contains pattern then st
                  else (pattern :: st.1, st.2 ++ [path]))
                ([], [])
              Except.ok (if st.2.isEmpty then [[]] else st.2))

/-!
## `graph/reranking.rs`
-/

/-- Modelled from the spec (§4.5): `KBestPath` is defined in a resolver
version not among the provided sources; its fields are those the re-ranker
and its tests use. -/
structure KBestPath : Type where
  segments : List (List Candidate)
  cost : F
  viterbi_cost : F
  unigram_cost : F
  bigram_cost : F
  unknown_bigram_cost : F
  unknown_bigram_count : Nat
  token_count : Nat
  rerank_cost : F
  word_ids : List Int
  skip_bigram_cost : F
deriving DecidableEq, Repr

/-- `ReRankingWeights` (the unigram weight is fixed at 1.0: there is no
field for it, and the formula adds `unigram_cost` unweighted). -/
structure ReRankingWeights : Type where
  bigram_weight : F
  length_weight : F
  unknown_bigram_weight : F
  skip_bigram_weight : F
deriving DecidableEq, Repr

/-- `ReRankingWeights::default()`. -/
def ReRankingWeights.default : ReRankingWeights :=
  ⟨F.fin 1, F.fin 2, F.fin 1, F.fin 0⟩

/-- `ReRankingWeights::is_default()`. -/
def ReRankingWeights.is_default (w : ReRankingWeights) : Bool :=
  w = ReRankingWeights.default

/-- The rerank cost formula of `ReRankingWeights::rerank`:
`unigram + w_bi*bigram + w_ubi*unknown_bigram + w_len*(token_count as f32)
 + w_skip*skip_bigram`. -/
def rerankCostOf (w : ReRankingWeights) (p : KBestPath) : F :=
  F.add (F.add (F.add (F.add p.unigram_cost (F.mul w.bigram_weight p.bigram_cost))
    (F.mul w.unknown_bigram_weight p.unknown_bigram_cost))
    (F.mul w.length_weight (F.fin (p.token_count : ℚ))))
    (F.mul w.skip_bigram_weight p.skip_bigram_cost)

/-- The comparator of the rerank sort:
`a.rerank_cost.partial_cmp(&b.rerank_cost).unwrap()` — the `unwrap`
panics on NaN, so the comparator is `Option`-valued (`none` = panic),
unlike the `unwrap_or(Equal)` comparators of the resolver. -/
def kBestPathCompare (a b : KBestPath) : Option Ordering :=
  F.partialCmp a.rerank_cost b.rerank_cost

/-- `ReRankingWeights::rerank`: recompute every path's `rerank_cost`,
then sort ascending with the panicking comparator (`none` = panic). -/
def ReRankingWeights.rerank (w : ReRankingWeights) (paths : List KBestPath) :
    Option (List KBestPath) :=
  sortByCmpM kBestPathCompare
    (paths.map (fun p => { p with rerank_cost := rerankCostOf w p }))

/-!
## Claims C2 and C5
-/

theorem F.isNan_true_iff (x : F) : x.isNan = true ↔ x = F.nan := by
  cases x <;> simp [F.isNan]

theorem F.partialCmp_nan_left (y : F) : F.partialCmp F.nan y = none := by
  cases y <;> rfl

theorem F.partialCmp_nan_right (x : F) : F.partialCmp x F.nan = none := by
  cases x <;> rfl

/-- Claim C2, counterexample: a two-path collection whose first path has a
NaN `unigram_cost` makes `ReRankingWeights::rerank` panic — the sort's
comparator is `partial_cmp(..).unwrap()`, not `unwrap_or(Equal)`.  (`none`
models the panic.) -/
theorem c2_counterexample_rerank_unwrap_panics_on_nan :
    ReRankingWeights.rerank ReRankingWeights.default
      [⟨[], F.fin 0, F.fin 0, F.nan, F.fin 0, F.fin 0, 0, 1, F.fin 0, [], F.fin 0⟩,
       ⟨[], F.fin 0, F.fin 0, F.fin 0, F.fin 0, F.fin 0, 0, 1, F.fin 0, [], F.fin 0⟩] =
      none := by decide

/-- Claim C2, amended: the k-best entry sort of `resolve_k_best` and the
`BreakDown` ordering of breakdown-candidate collection treat a NaN cost as
equal to the other operand and never panic (their comparators are total,
via `unwrap_or(Ordering::Equal)`); the rerank sort in
`ReRankingWeights::rerank`, however, unwraps `partial_cmp` and panics when
a compared `rerank_cost` is NaN (`none` models the panicking
comparison). -/
theorem c2_amended_nan_comparison_behavior :
    (∀ a b : KBestEntry, a.cost.isNan = true ∨ b.cost.isNan = true →
        kBestEntryCompare a b = Ordering.eq) ∧
    (∀ a b : BreakDown,
        (F.add a.head_cost a.tail_cost).isNan = true ∨
          (F.add b.head_cost b.tail_cost).isNan = true →
        breakDownCompare a b = Ordering.eq) ∧
    (∀ a b : KBestPath, a.rerank_cost.isNan = true ∨ b.rerank_cost.isNan = true →
        kBestPathCompare a b = none) := by
  refine ⟨?_, ?_, ?_⟩
  · intro a b h
    rcases h with h | h
    · rw [F.isNan_true_iff] at h
      simp [kBestEntryCompare, h, F.partialCmp_nan_left]
    · rw [F.isNan_true_iff] at h
      simp [kBestEntryCompare, h, F.partialCmp_nan_right]
  · intro a b h
    rcases h with h | h
    · rw [F.isNan_true_iff] at h
      simp [breakDownCompare, h, F.partialCmp_nan_left]
    · rw [F.isNan_true_iff] at h
      simp [breakDownCompare, h, F.partialCmp_nan_right]
  · intro a b h
    rcases h with h | h
    · rw [F.isNan_true_iff] at h
      simp [kBestPathCompare, h, F.partialCmp_nan_left]
    · rw [F.isNan_true_iff] at h
      simp [kBestPathCompare, h, F.partialCmp_nan_right]

/-- Witness for C2 (amended), at concrete NaN-carrying values. -/
theorem c2_amended_nan_comparison_behavior_witness :
    kBestEntryCompare ⟨F.nan, ⟨0, strL "a", strL "a", F.fin 0, none, false⟩, 0⟩
        ⟨F.fin 1, ⟨0, strL "a", strL "a", F.fin 0, none, false⟩, 0⟩ = Ordering.eq ∧
    breakDownCompare ⟨⟨0, strL "a", strL "a", F.fin 0, none, false⟩, F.nan, F.fin 0⟩
        ⟨⟨0, strL "a", strL "a", F.fin 0, none, false⟩, F.fin 1, F.fin 1⟩ =
      Ordering.eq ∧
    kBestPathCompare
        ⟨[], F.fin 0, F.fin 0, F.fin 0, F.fin 0, F.fin 0, 0, 1, F.nan, [], F.fin 0⟩
        ⟨[], F.fin 0, F.fin 0, F.fin 0, F.fin 0, F.fin 0, 0, 1, F.fin 2, [], F.fin 0⟩ =
      none :=
  ⟨c2_amended_nan_comparison_behavior.1 _ _ (Or.inl rfl),
   c2_amended_nan_comparison_behavior.2.1 _ _ (Or.inl rfl),
   c2_amended_nan_comparison_behavior.2.2 _ _ (Or.inl rfl)⟩

/-- Ascending order on rerank costs (both finite). -/
def pathLeQ (a b : KBestPath) : Prop :=
  ∃ qa qb, a.rerank_cost = F.fin qa ∧ b.rerank_cost = F.fin qb ∧ qa ≤ qb

theorem exists_fin_of_not_isNan {x : F} (h : x.isNan = false) : ∃ q, x = F.fin q := by
  cases x with
  | nan => simp [F.isNan] at h
  | fin q => exact ⟨q, rfl⟩

theorem insertCmpM_path (x : KBestPath) (ys : List KBestPath)
    (hx : x.rerank_cost.isNan = false)
    (hys : ∀ y ∈ ys, y.rerank_cost.isNan = false)
    (hs : ys.Pairwise pathLeQ) :
    ∃ out, insertCmpM kBestPathCompare x ys = some out ∧ out.Perm (x :: ys) ∧
      out.Pairwise pathLeQ := by
  induction ys with
  | nil => exact ⟨[x], rfl, List.Perm.refl _, by simp⟩
  | cons y ys ih =>
    obtain ⟨qx, hqx⟩ := exists_fin_of_not_isNan hx
    obtain ⟨qy, hqy⟩ := exists_fin_of_not_isNan (hys y (List.mem_cons_self y ys))
    have hcmp : kBestPathCompare x y =
        some (if qx < qy then Ordering.lt else if qx = qy then Ordering.eq
          else Ordering.gt) := by
      unfold kBestPathCompare
      rw [hqx, hqy]
      rfl
    by_cases hle : qx ≤ qy
    · refine ⟨x :: y :: ys, ?_, List.Perm.refl _, ?_⟩
      · unfold insertCmpM
        rw [hcmp]
        rcases lt_or_eq_of_le hle with hlt | heq
        · simp [if_pos hlt]
        · simp [heq]
      · refine List.Pairwise.cons ?_ hs
        intro z hz
        rcases List.mem_cons.mp hz with rfl | hz'
        · exact ⟨qx, qy, hqx, hqy, hle⟩
        · obtain ⟨qz, hqz⟩ := exists_fin_of_not_isNan
            (hys z (List.mem_cons_of_mem y hz'))
          obtain ⟨qy', qz', h1, h2, h3⟩ :=
            (List.pairwise_cons.mp hs).1 z hz'
          rw [hqy] at h1
          rw [hqz] at h2
          injection h1 with h1
          injection h2 with h2
          refine ⟨qx, qz, hqx, hqz, ?_⟩
          rw [h2]
          exact le_trans (h1 ▸ hle) h3
    · push_neg at hle
      obtain ⟨out', hout', hperm', hpw'⟩ :=
        ih (fun z hz => hys z (List.mem_cons_of_mem y hz)) (List.pairwise_cons.mp hs).2
      refine ⟨y :: out', ?_, ?_, ?_⟩
      · unfold insertCmpM
        rw [hcmp, if_neg (not_lt_of_gt hle), if_neg (ne_of_gt hle)]
        simp [hout']
      · exact (hperm'.cons y).trans (List.Perm.swap x y ys)
      · refine List.Pairwise.cons ?_ hpw'
        intro z hz
        have hzmem : z ∈ x :: ys := hperm'.mem_iff.mp hz
        rcases List.mem_cons.mp hzmem with rfl | hz'
        · exact ⟨qy, qx, hqy, hqx, le_of_lt hle⟩
        · obtain ⟨qz, hqz⟩ := exists_fin_of_not_isNan
            (hys z (List.mem_cons_of_mem y hz'))
          obtain ⟨qy', qz', h1, h2, h3⟩ := (List.pairwise_cons.mp hs).1 z hz'
          rw [hqy] at h1
          rw [hqz] at h2
          injection h1 with h1
          injection h2 with h2
          refine ⟨qy, qz, hqy, hqz, ?_⟩
          rw [h2]
          exact h1.symm ▸ h3

theorem sortByCmpM_path (l : List KBestPath)
    (hl : ∀ p ∈ l, p.rerank_cost.isNan = false) :
    ∃ out, sortByCmpM kBestPathCompare l = some out ∧ out.Perm l ∧
      out.Pairwise pathLeQ := by
  induction l with
  | nil => exact ⟨[], rfl, List.Perm.refl _, by simp⟩
  | cons x xs ih =>
    obtain ⟨out', hout', hperm', hpw'⟩ :=
      ih (fun z hz => hl z (List.mem_cons_of_mem x hz))
    obtain ⟨out, hout, hperm, hpw⟩ :=
      insertCmpM_path x out' (hl x (List.mem_cons_self x xs))
        (fun z hz => hl z (List.mem_cons_of_mem x (hperm'.mem_iff.mp hz))) hpw'
    refine ⟨out, ?_, hperm.trans (hperm'.cons x), hpw⟩
    unfold sortByCmpM
    rw [hout']
    simpa using hout

/-- Claim C5: the re-ranker sets every path's `rerank_cost` to
`unigram + bigram_weight*bigram + unknown_bigram_weight*unknown_bigram +
length_weight*token_count + skip_bigram_weight*skip_bigram` (the unigram
weight fixed at 1.0), the default weights are `{bigram = 1.0,
unknown_bigram = 1.0, length = 2.0, skip_bigram = 0.0}`, and (whenever
the recomputed costs are not NaN, so the panicking sort completes) the
returned paths are the recomputed ones ordered ascending by
`rerank_cost`. -/
theorem c5_rerank_linear_combination :
    ReRankingWeights.default = ⟨F.fin 1, F.fin 2, F.fin 1, F.fin 0⟩ ∧
    ∀ (w : ReRankingWeights) (paths : List KBestPath),
      (∀ p ∈ paths, (rerankCostOf w p).isNan = false) →
      ∃ out, w.rerank paths = some out ∧
        out.Perm (paths.map (fun p => { p with rerank_cost := rerankCostOf w p })) ∧
        (∀ p ∈ out, p.rerank_cost = rerankCostOf w p) ∧
        out.Pairwise pathLeQ := by
  refine ⟨rfl, ?_⟩
  intro w paths hfin
  have hupd : ∀ p ∈ paths.map (fun p => { p with rerank_cost := rerankCostOf w p }),
      p.rerank_cost.isNan = false := by
    intro p hp
    obtain ⟨q, hq, rfl⟩ := List.mem_map.mp hp
    exact hfin q hq
  obtain ⟨out, hout, hperm, hpw⟩ :=
    sortByCmpM_path (paths.map (fun p => { p with rerank_cost := rerankCostOf w p }))
      hupd
  refine ⟨out, hout, hperm, ?_, hpw⟩
  intro p hp
  obtain ⟨q, _, rfl⟩ := List.mem_map.mp (hperm.mem_iff.mp hp)
  rfl

/-- Witness for C5: the re-ranker evaluated on the two concrete paths of
the repository's own `test_default_weights_rerank_cost` unit test. -/
theorem c5_rerank_linear_combination_witness :
    ∃ out, ReRankingWeights.rerank ReRankingWeights.default
        [⟨[], F.fin 10, F.fin 10, F.fin 3, F.fin 2, F.fin 5, 1, 3, F.fin 10, [], F.fin 0⟩,
         ⟨[], F.fin 8, F.fin 8, F.fin 4, F.fin 1, F.fin 3, 1, 2, F.fin 8, [], F.fin 0⟩] =
        some out ∧
      out.Perm (([⟨[], F.fin 10, F.fin 10, F.fin 3, F.fin 2, F.fin 5, 1, 3, F.fin 10, [],
          F.fin 0⟩,
        ⟨[], F.fin 8, F.fin 8, F.fin 4, F.fin 1, F.fin 3, 1, 2, F.fin 8, [],
          F.fin 0⟩] : List KBestPath).map (fun p =>
            { p with rerank_cost := rerankCostOf ReRankingWeights.default p })) ∧
      (∀ p ∈ out, p.rerank_cost = rerankCostOf ReRankingWeights.default p) ∧
      out.Pairwise pathLeQ :=
  c5_rerank_linear_combination.2 ReRankingWeights.default
    [⟨[], F.fin 10, F.fin 10, F.fin 3, F.fin 2, F.fin 5, 1, 3, F.fin 10, [], F.fin 0⟩,
     ⟨[], F.fin 8, F.fin 8, F.fin 4, F.fin 1, F.fin 3, 1, 2, F.fin 8, [], F.fin 0⟩]
    (by decide)

/-!
## Claims C9 and C4: supporting lemmas
-/

theorem insertCmp_perm (cmp : α → α → Ordering) (x : α) (l : List α) :
    (insertCmp cmp x l).Perm (x :: l) := by
  induction l with
  | nil => exact List.Perm.refl _
  | cons y ys ih =>
    unfold insertCmp
    cases hc : cmp x y with
    | gt => exact (ih.cons y).trans (List.Perm.swap x y ys)
    | lt => exact List.Perm.refl _
    | eq => exact List.Perm.refl _

theorem sortByCmp_perm (cmp : α → α → Ordering) (l : List α) :
    (sortByCmp cmp l).Perm l := by
  induction l with
  | nil => exact List.Perm.refl _
  | cons x xs ih => exact (insertCmp_perm cmp x (sortByCmp cmp xs)).trans (ih.cons x)

theorem lookupBy_mem (eq : κ → κ → Bool) (k : κ) (m : List (κ × υ)) (v : υ)
    (h : lookupBy eq k m = some v) : ∃ k', (k', v) ∈ m ∧ eq k k' = true := by
  induction m with
  | nil => simp [lookupBy] at h
  | cons p t ih =>
    obtain ⟨k', v'⟩ := p
    unfold lookupBy at h
    split at h
    · exact ⟨k', by simp [Option.some_injective _ h], by assumption⟩
    · obtain ⟨k'', hm, he⟩ := ih h
      exact ⟨k'', List.mem_cons_of_mem _ hm, he⟩

theorem F.rustEq_symm (a b : F) : F.rustEq a b = F.rustEq b a := by
  cases a <;> cases b <;> simp [F.rustEq] <;> exact ⟨fun h => h.symm, fun h => h.symm⟩

theorem F.rustEq_trans (a b c : F) (h1 : F.rustEq a b = true)
    (h2 : F.rustEq b c = true) : F.rustEq a c = true := by
  cases a <;> cases b <;> cases c <;> simp_all [F.rustEq]

theorem WordNode.req_symm (a b : WordNode) : WordNode.req a b = WordNode.req b a := by
  unfold WordNode.req
  rw [F.rustEq_symm]
  by_cases h1 : a.start_pos = b.start_pos <;>
    by_cases h2 : a.surface = b.surface <;>
    by_cases h3 : a.yomi = b.yomi <;>
    simp [h1, h2, h3, eq_comm]

theorem WordNode.req_trans (a b c : WordNode) (h1 : WordNode.req a b = true)
    (h2 : WordNode.req b c = true) : WordNode.req a c = true := by
  unfold WordNode.req at h1 h2 ⊢
  simp only [Bool.and_eq_true, decide_eq_true_eq] at h1 h2 ⊢
  exact ⟨⟨⟨h1.1.1.1.trans h2.1.1.1, h1.1.1.2.trans h2.1.1.2⟩,
    h1.1.2.trans h2.1.2⟩, F.rustEq_trans _ _ _ h1.2 h2.2⟩

theorem WordNode.req_refl (a : WordNode) (h : a.cost.isNan = false) :
    WordNode.req a a = true := by
  obtain ⟨q, hq⟩ := exists_fin_of_not_isNan h
  unfold WordNode.req
  simp [hq, F.rustEq]

theorem lookupBy_insertBy (eq : κ → κ → Bool)
    (hsymm : ∀ a b, eq a b = eq b a)
    (htrans : ∀ a b c, eq a b = true → eq b c = true → eq a c = true)
    (k k' : κ) (v : υ) (m : List (κ × υ)) :
    lookupBy eq k (insertBy eq k' v m) =
      if eq k k' then some v else lookupBy eq k m := by
  induction m with
  | nil => simp [insertBy, lookupBy]
  | cons p t ih =>
    obtain ⟨k'', v''⟩ := p
    unfold insertBy
    by_cases h1 : eq k' k'' = true
    · rw [if_pos h1]
      unfold lookupBy
      by_cases h2 : eq k k' = true
      · simp [h2]
      · have h3 : eq k k'' = false := by
          cases hb : eq k k''
          · rfl
          · exact absurd (htrans k k'' k' hb ((hsymm k' k'') ▸ h1)) (by simp [h2])
        simp [h2, h3]
    · rw [if_neg h1]
      unfold lookupBy
      by_cases h2 : eq k k'' = true
      · have h4 : eq k k' = false := by
          cases hb : eq k k'
          · rfl
          · exact absurd (htrans k' k k'' ((hsymm k k') ▸ hb) h2)
              (by simp [hsymm k' k''] at h1 ⊢; simp [h1])
        simp [h2, h4]
      · simp [h2, ih]

/-- Every candidate produced by the compound breakdown is flagged
`compound_word = true` and covers exactly the clause's yomi byte length. -/
theorem collect_breakdown_results_mem (fuel : Nat) :
    ∀ (ny : Str) (rl : Nat) (msp : Int) (cs cy : Str) (lat : LatticeGraph)
      (ep : Int) (d : Nat) (cm : CostMap) (tc : F) (nn : Option WordNode)
      (c : Candidate),
      c ∈ collect_breakdown_results fuel ny rl msp cs cy lat ep d cm tc nn →
      c.compound_word = true ∧ utf8Len c.yomi = utf8Len ny := by
  induction fuel with
  | zero =>
    intro ny rl msp cs cy lat ep d cm tc nn c hc
    simp [collect_breakdown_results] at hc
  | succ fuel ih =>
    intro ny rl msp cs cy lat ep d cm tc nn c hc
    unfold collect_breakdown_results at hc
    split at hc
    · simp at hc
    · split at hc
      · rename_i hlen
        simp at hc
        subst hc
        exact ⟨rfl, hlen⟩
      · split at hc
        · simp at hc
        · simp only [List.mem_bind] at hc
          obtain ⟨target, htmem, hcin⟩ := hc
          split at hcin
          · simp at hcin
          · split at hcin
            · simp at hcin
            · exact ih _ _ _ _ _ _ _ _ _ _ _ _ hcin

/-- Ascending order on candidate costs (both finite). -/
def candLeQ (a b : Candidate) : Prop :=
  ∃ qa qb, a.cost = F.fin qa ∧ b.cost = F.fin qb ∧ qa ≤ qb

theorem insertCmp_cand (x : Candidate) (ys : List Candidate)
    (hx : x.cost.isNan = false)
    (hys : ∀ y ∈ ys, y.cost.isNan = false)
    (hs : ys.Pairwise candLeQ) :
    (insertCmp candidateCompare x ys).Pairwise candLeQ := by
  induction ys with
  | nil => simp [insertCmp]
  | cons y ys ih =>
    obtain ⟨qx, hqx⟩ := exists_fin_of_not_isNan hx
    obtain ⟨qy, hqy⟩ := exists_fin_of_not_isNan (hys y (List.mem_cons_self y ys))
    have hcmp : candidateCompare x y =
        (if qx < qy then Ordering.lt else if qx = qy then Ordering.eq
          else Ordering.gt) := by
      unfold candidateCompare F.partialCmp
      rw [hqx, hqy]
      rfl
    by_cases hle : qx ≤ qy
    · have harm : insertCmp candidateCompare x (y :: ys) = x :: y :: ys := by
        unfold insertCmp
        rw [hcmp]
        rcases lt_or_eq_of_le hle with hlt | heq
        · simp [if_pos hlt]
        · simp [heq]
      rw [harm]
      refine List.Pairwise.cons ?_ hs
      intro z hz
      rcases List.mem_cons.mp hz with rfl | hz'
      · exact ⟨qx, qy, hqx, hqy, hle⟩
      · obtain ⟨qz, hqz⟩ := exists_fin_of_not_isNan
          (hys z (List.mem_cons_of_mem y hz'))
        obtain ⟨qy', qz', h1, h2, h3⟩ := (List.pairwise_cons.mp hs).1 z hz'
        rw [hqy] at h1
        rw [hqz] at h2
        injection h1 with h1
        injection h2 with h2
        refine ⟨qx, qz, hqx, hqz, ?_⟩
        rw [h2]
        exact le_trans (h1 ▸ hle) h3
    · push_neg at hle
      have hgt : candidateCompare x y = Ordering.gt := by
        rw [hcmp, if_neg (not_lt_of_gt hle), if_neg (ne_of_gt hle)]
      have harm : insertCmp candidateCompare x (y :: ys) =
          y :: insertCmp candidateCompare x ys := by
        conv_lhs => rw [insertCmp]
        rw [hgt]
      rw [harm]
      refine List.Pairwise.cons ?_
        (ih (fun z hz => hys z (List.mem_cons_of_mem y hz))
          (List.pairwise_cons.mp hs).2)
      intro z hz
      have hzmem : z ∈ x :: ys :=
        (insertCmp_perm candidateCompare x ys).mem_iff.mp hz
      rcases List.mem_cons.mp hzmem with rfl | hz'
      · exact ⟨qy, qx, hqy, hqx, le_of_lt hle⟩
      · obtain ⟨qz, hqz⟩ := exists_fin_of_not_isNan
          (hys z (List.mem_cons_of_mem y hz'))
        obtain ⟨qy', qz', h1, h2, h3⟩ := (List.pairwise_cons.mp hs).1 z hz'
        rw [hqy] at h1
        rw [hqz] at h2
        injection h1 with h1
        injection h2 with h2
        refine ⟨qy, qz, hqy, hqz, ?_⟩
        rw [h2]
        exact h1.symm ▸ h3

theorem sortByCmp_cand (l : List Candidate)
    (hl : ∀ c ∈ l, c.cost.isNan = false) :
    (sortByCmp candidateCompare l).Pairwise candLeQ := by
  induction l with
  | nil => simp [sortByCmp]
  | cons x xs ih =>
    unfold sortByCmp
    exact insertCmp_cand x (sortByCmp candidateCompare xs)
      (hl x (List.mem_cons_self x xs))
      (fun z hz => hl z (List.mem_cons_of_mem x
        ((sortByCmp_perm candidateCompare xs).mem_iff.mp hz)))
      (ih (fun z hz => hl z (List.mem_cons_of_mem x hz)))

/-- The strict (non-compound) part of `get_candidates`: the same-span
alternatives, sorted. -/
def strictCandidates (lat : LatticeGraph) (costmap : CostMap) (node : WordNode)
    (end_pos : Int) : List Candidate :=
  match lat.node_list end_pos with
  | none => []
  | some nl =>
    sortByCmp candidateCompare ((nl.filter (fun alt =>
      decide (alt.start_pos = node.start_pos) &&
        decide (utf8Len alt.yomi = utf8Len node.yomi))).map
      (fun f => ⟨f.surface, f.yomi, (cmGet costmap f).getD F.f32MAX, false⟩))

/-- The compound part of `get_candidates`: the sorted breakdown
candidates, appended only when the strict part has fewer than 5 entries. -/
def compoundCandidates (lat : LatticeGraph) (costmap : CostMap) (node : WordNode)
    (end_pos : Int) : List Candidate :=
  match lat.node_list end_pos with
  | none => []
  | some nl =>
    if (sortByCmp candidateCompare ((nl.filter (fun alt =>
        decide (alt.start_pos = node.start_pos) &&
          decide (utf8Len alt.yomi = utf8Len node.yomi))).map
        (fun f => ⟨f.surface, f.yomi, (cmGet costmap f).getD F.f32MAX, false⟩))).length
        < 5 then
      sortByCmp candidateCompare (collect_breakdown_results 6 node.yomi
        (utf8Len node.yomi) node.start_pos [] [] lat end_pos 0 costmap (F.fin 0) none)
    else []

/-- Claim C9: `get_candidates` places the non-compound candidates (the
lattice nodes with the node's `start_pos` and yomi byte length, flagged
`compound_word = false` and sorted ascending by 1-best DP cost) before
every compound candidate; breakdown candidates are appended only when
fewer than 5 non-compound alternatives exist, and every appended
breakdown candidate is flagged `compound_word = true`. -/
theorem c9_candidates_order (lat : LatticeGraph) (costmap : CostMap)
    (node : WordNode) (end_pos : Int) :
    get_candidates lat costmap node end_pos =
        strictCandidates lat costmap node end_pos ++
          compoundCandidates lat costmap node end_pos ∧
    (∀ c ∈ strictCandidates lat costmap node end_pos, c.compound_word = false) ∧
    (∀ c ∈ compoundCandidates lat costmap node end_pos, c.compound_word = true) ∧
    (5 ≤ (strictCandidates lat costmap node end_pos).length →
      compoundCandidates lat costmap node end_pos = []) ∧
    (∀ nl, lat.node_list end_pos = some nl →
      ∀ c, c ∈ strictCandidates lat costmap node end_pos ↔
        ∃ alt ∈ nl, alt.start_pos = node.start_pos ∧
          utf8Len alt.yomi = utf8Len node.yomi ∧
          c = ⟨alt.surface, alt.yomi, (cmGet costmap alt).getD F.f32MAX, false⟩) ∧
    ((∀ c ∈ strictCandidates lat costmap node end_pos, c.cost.isNan = false) →
      (strictCandidates lat costmap node end_pos).Pairwise candLeQ) := by
  refine ⟨?_, ?_, ?_, ?_, ?_, ?_⟩
  · unfold get_candidates strictCandidates compoundCandidates
    cases hnl : lat.node_list end_pos with
    | none => rfl
    | some nl =>
      dsimp only
      split
      · rfl
      · simp
  · intro c hc
    unfold strictCandidates at hc
    split at hc
    · simp at hc
    · have hmem := (sortByCmp_perm candidateCompare _).mem_iff.mp hc
      obtain ⟨f, -, rfl⟩ := List.mem_map.mp hmem
      rfl
  · intro c hc
    unfold compoundCandidates at hc
    split at hc
    · simp at hc
    · split at hc
      · have hmem := (sortByCmp_perm candidateCompare _).mem_iff.mp hc
        exact (collect_breakdown_results_mem 6 _ _ _ _ _ _ _ _ _ _ _ _ hmem).1
      · simp at hc
  · intro h5
    unfold strictCandidates at h5
    unfold compoundCandidates
    cases hnl : lat.node_list end_pos with
    | none => rfl
    | some nl =>
      simp only [hnl] at h5
      dsimp only
      rw [if_neg (by omega)]
  · intro nl hnl c
    unfold strictCandidates
    rw [hnl]
    constructor
    · intro hc
      have hmem := (sortByCmp_perm candidateCompare _).mem_iff.mp hc
      obtain ⟨f, hf, rfl⟩ := List.mem_map.mp hmem
      obtain ⟨hfmem, hcond⟩ := List.mem_filter.mp hf
      simp only [Bool.and_eq_true, decide_eq_true_eq] at hcond
      exact ⟨f, hfmem, hcond.1, hcond.2, rfl⟩
    · intro ⟨alt, hmem, h1, h2, hc⟩
      refine (sortByCmp_perm candidateCompare _).mem_iff.mpr ?_
      refine List.mem_map.mpr ⟨alt, List.mem_filter.mpr ⟨hmem, ?_⟩, hc.symm⟩
      simp only [Bool.and_eq_true, decide_eq_true_eq]
      exact ⟨h1, h2⟩
  · intro hfin
    unfold strictCandidates at hfin ⊢
    cases hnl : lat.node_list end_pos with
    | none => simp
    | some nl =>
      simp only [hnl] at hfin
      dsimp only
      refine sortByCmp_cand _ ?_
      intro c hc
      exact hfin c ((sortByCmp_perm candidateCompare _).mem_iff.mpr hc)

/-- Witness for C9: a clause with five same-span alternatives — the
compound part is empty and the strict part is all non-compound. -/
theorem c9_candidates_order_witness :
    compoundCandidates
        ⟨strL "abc",
         [(3, [⟨0, strL "A", strL "abc", F.fin 0, none, true⟩,
               ⟨0, strL "B", strL "abc", F.fin 0, none, true⟩,
               ⟨0, strL "C", strL "abc", F.fin 0, none, true⟩,
               ⟨0, strL "D", strL "abc", F.fin 0, none, true⟩,
               ⟨0, strL "E", strL "abc", F.fin 0, none, true⟩])],
         ⟨⟨0, 0, []⟩, ⟨0, 0, []⟩⟩, ⟨fun c => F.fin c⟩, ⟨fun _ _ => none, F.fin 10⟩⟩
        [] ⟨0, strL "A", strL "abc", F.fin 0, none, true⟩ 3 = [] ∧
    ∀ c ∈ strictCandidates
        ⟨strL "abc",
         [(3, [⟨0, strL "A", strL "abc", F.fin 0, none, true⟩,
               ⟨0, strL "B", strL "abc", F.fin 0, none, true⟩,
               ⟨0, strL "C", strL "abc", F.fin 0, none, true⟩,
               ⟨0, strL "D", strL "abc", F.fin 0, none, true⟩,
               ⟨0, strL "E", strL "abc", F.fin 0, none, true⟩])],
         ⟨⟨0, 0, []⟩, ⟨0, 0, []⟩⟩, ⟨fun c => F.fin c⟩, ⟨fun _ _ => none, F.fin 10⟩⟩
        [] ⟨0, strL "A", strL "abc", F.fin 0, none, true⟩ 3,
      c.compound_word = false := by
  have h := c9_candidates_order
    ⟨strL "abc",
     [(3, [⟨0, strL "A", strL "abc", F.fin 0, none, true⟩,
           ⟨0, strL "B", strL "abc", F.fin 0, none, true⟩,
           ⟨0, strL "C", strL "abc", F.fin 0, none, true⟩,
           ⟨0, strL "D", strL "abc", F.fin 0, none, true⟩,
           ⟨0, strL "E", strL "abc", F.fin 0, none, true⟩])],
     ⟨⟨0, 0, []⟩, ⟨0, 0, []⟩⟩, ⟨fun c => F.fin c⟩, ⟨fun _ _ => none, F.fin 10⟩⟩
    [] ⟨0, strL "A", strL "abc", F.fin 0, none, true⟩ 3
  exact ⟨h.2.2.2.1 (by decide), h.2.1⟩

/-- The map invariant maintained by the forward DP: every stored entry
list is non-empty, holds at most `k` entries, and every entry's
predecessor comes from the node list keyed by the node's `start_pos`. -/
def KBInv (lat : LatticeGraph) (k : Nat) (kb : KBMap) : Prop :=
  ∀ n es, kbGet kb n = some es → es ≠ [] ∧ es.length ≤ k ∧
    ∀ e ∈ es, ∃ pl, lat.get n.start_pos = some pl ∧ e.prev_node ∈ pl

theorem kbGet_kbInsert (kb : KBMap) (n : WordNode) (es : List KBestEntry)
    (m : WordNode) :
    kbGet (kbInsert kb n es) m =
      if WordNode.req m n then some es else kbGet kb m :=
  lookupBy_insertBy WordNode.req WordNode.req_symm WordNode.req_trans m n es kb

theorem req_start_pos_eq {a b : WordNode} (h : WordNode.req a b = true) :
    a.start_pos = b.start_pos := by
  unfold WordNode.req at h
  simp only [Bool.and_eq_true, decide_eq_true_eq] at h
  exact h.1.1.1

theorem dpProcessNode_ok (lat : LatticeGraph) (k : Nat) (kb : KBMap)
    (node : WordNode) (kb' : KBMap)
    (h : dpProcessNode lat k kb node = Except.ok kb') :
    ∃ es prevs, lat.get node.start_pos = some prevs ∧
      kb' = kbInsert kb node es ∧ es ≠ [] ∧ es.length ≤ k ∧
      ∀ e ∈ es, e.prev_node ∈ prevs := by
  unfold dpProcessNode at h
  split at h
  · exact absurd h (by simp)
  · rename_i prevs hprevs
    dsimp only at h
    split at h
    · exact absurd h (by simp)
    · rename_i hne
      refine ⟨_, prevs, hprevs, (Except.ok.injEq _ _ ▸ h).symm, ?_, ?_, ?_⟩
      · simpa using hne
      · exact le_trans (List.length_take_le _ _) (le_refl _) |>.trans
          (by simp [List.length_take])
      · intro e he
        have he2 := List.mem_of_mem_take he
        have he3 := (sortByCmp_perm kBestEntryCompare _).mem_iff.mp he2
        simp only [List.mem_bind] at he3
        obtain ⟨prev, hpmem, hein⟩ := he3
        split at hein
        · obtain ⟨re, -, rfl⟩ := List.mem_map.mp hein
          exact hpmem
        · simp at hein
          subst hein
          exact hpmem

theorem dpProcessNode_inv (lat : LatticeGraph) (k : Nat) (kb : KBMap)
    (node : WordNode) (kb' : KBMap) (hinv : KBInv lat k kb)
    (h : dpProcessNode lat k kb node = Except.ok kb') :
    KBInv lat k kb' ∧ (∀ m, (kbGet kb m).isSome → (kbGet kb' m).isSome) ∧
    (node.cost.isNan = false → (kbGet kb' node).isSome) := by
  obtain ⟨es, prevs, hget, hkb', hne, hlen, hprov⟩ := dpProcessNode_ok lat k kb node kb' h
  subst hkb'
  refine ⟨?_, ?_, ?_⟩
  · intro m es' hm
    rw [kbGet_kbInsert] at hm
    split at hm
    · rename_i hreq
      cases hm
      rw [req_start_pos_eq hreq]
      exact ⟨hne, hlen, fun e he => ⟨prevs, hget, hprov e he⟩⟩
    · exact hinv m es' hm
  · intro m hm
    rw [kbGet_kbInsert]
    split
    · simp
    · exact hm
  · intro hnan
    rw [kbGet_kbInsert]
    simp [WordNode.req_refl node hnan]

theorem exceptOkBind {α β : Type} (a : α) (g : α → Except ResolveError β) :
    (Except.ok a : Except ResolveError α) >>= g = g a := rfl

theorem exceptErrBind {α β : Type} (e : ResolveError) (g : α → Except ResolveError β) :
    (Except.error e : Except ResolveError α) >>= g = Except.error e := rfl

theorem foldNodes_inv (lat : LatticeGraph) (k : Nat) (nodes : List WordNode)
    (kb kb' : KBMap) (hinv : KBInv lat k kb)
    (h : nodes.foldlM (fun kb node => dpProcessNode lat k kb node) kb = Except.ok kb') :
    KBInv lat k kb' ∧ (∀ m, (kbGet kb m).isSome → (kbGet kb' m).isSome) ∧
    (∀ n ∈ nodes, n.cost.isNan = false → (kbGet kb' n).isSome) := by
  induction nodes generalizing kb with
  | nil =>
    cases h
    exact ⟨hinv, fun m hm => hm, by simp⟩
  | cons x t ih =>
    rw [List.foldlM_cons] at h
    cases hstep : dpProcessNode lat k kb x with
    | error e =>
      rw [hstep, exceptErrBind] at h
      exact absurd h (by simp)
    | ok kb1 =>
      rw [hstep, exceptOkBind] at h
      obtain ⟨hinv1, hmono1, hcov1⟩ := dpProcessNode_inv lat k kb x kb1 hinv hstep
      obtain ⟨hinv2, hmono2, hcov2⟩ := ih kb1 hinv1 h
      refine ⟨hinv2, fun m hm => hmono2 m (hmono1 m hm), ?_⟩
      intro n hn hnan
      rcases List.mem_cons.mp hn with rfl | hn'
      · exact hmono2 n (hcov1 hnan)
      · exact hcov2 n hn' hnan

/-- One iteration of the forward DP loop over a position. -/
def dpStep (lat : LatticeGraph) (k : Nat) (kb : KBMap) (i : Int) :
    Except ResolveError KBMap :=
  match lat.node_list i with
  | none => Except.ok kb
  | some nodes => nodes.foldlM (fun kb node => dpProcessNode lat k kb node) kb

theorem dpLoop_eq_foldStep (lat : LatticeGraph) (k : Nat) :
    dpLoop lat k = (dpPositions lat).foldlM (dpStep lat k) [] := rfl

theorem foldPositions_inv (lat : LatticeGraph) (k : Nat) (ps : List Int)
    (kb kb' : KBMap) (hinv : KBInv lat k kb)
    (h : ps.foldlM (dpStep lat k) kb = Except.ok kb') :
    KBInv lat k kb' ∧ (∀ m, (kbGet kb m).isSome → (kbGet kb' m).isSome) ∧
    (∀ i ∈ ps, ∀ nl, lat.node_list i = some nl →
      ∀ n ∈ nl, n.cost.isNan = false → (kbGet kb' n).isSome) := by
  induction ps generalizing kb with
  | nil =>
    cases h
    exact ⟨hinv, fun m hm => hm, by simp⟩
  | cons i t ih =>
    rw [List.foldlM_cons] at h
    cases hnl : lat.node_list i with
    | none =>
      have hstep : dpStep lat k kb i = Except.ok kb := by
        unfold dpStep
        rw [hnl]
      rw [hstep, exceptOkBind] at h
      obtain ⟨hinv2, hmono2, hcov2⟩ := ih kb hinv h
      refine ⟨hinv2, hmono2, ?_⟩
      intro j hj nl hjnl n hn hnan
      rcases List.mem_cons.mp hj with rfl | hj'
      · rw [hnl] at hjnl
        exact absurd hjnl (by simp)
      · exact hcov2 j hj' nl hjnl n hn hnan
    | some nodes =>
      have hstep : dpStep lat k kb i =
          nodes.foldlM (fun kb node => dpProcessNode lat k kb node) kb := by
        unfold dpStep
        rw [hnl]
      rw [hstep] at h
      cases hfold : nodes.foldlM (fun kb node => dpProcessNode lat k kb node) kb with
      | error e =>
        rw [hfold, exceptErrBind] at h
        exact absurd h (by simp)
      | ok kb1 =>
        rw [hfold, exceptOkBind] at h
        obtain ⟨hinv1, hmono1, hcov1⟩ := foldNodes_inv lat k nodes kb kb1 hinv hfold
        obtain ⟨hinv2, hmono2, hcov2⟩ := ih kb1 hinv1 h
        refine ⟨hinv2, fun m hm => hmono2 m (hmono1 m hm), ?_⟩
        intro j hj nl hjnl n hn hnan
        rcases List.mem_cons.mp hj with rfl | hj'
        · rw [hnl] at hjnl
          cases hjnl
          exact hmono2 n (hcov1 n hn hnan)
        · exact hcov2 j hj' nl hjnl n hn hnan

theorem dpLoop_inv (lat : LatticeGraph) (k : Nat) (kb' : KBMap)
    (h : dpLoop lat k = Except.ok kb') :
    KBInv lat k kb' ∧
    (∀ i ∈ dpPositions lat, ∀ nl, lat.node_list i = some nl →
      ∀ n ∈ nl, n.cost.isNan = false → (kbGet kb' n).isSome) := by
  have hinv0 : KBInv lat k [] := by
    intro n es hn
    exact absurd hn (by simp [kbGet, lookupBy])
  rw [dpLoop_eq_foldStep] at h
  obtain ⟨h1, -, h3⟩ := foldPositions_inv lat k (dpPositions lat) [] kb' hinv0 h
  exact ⟨h1, h3⟩

theorem dpProcessNode_error_shape (lat : LatticeGraph) (k : Nat) (kb : KBMap)
    (node : WordNode) (e : ResolveError)
    (h : dpProcessNode lat k kb node = Except.error e) :
    e = ResolveError.cannotGetPrevNodes node ∨
      e = ResolveError.noValidPreviousNode node := by
  unfold dpProcessNode at h
  split at h
  · cases h
    exact Or.inl rfl
  · dsimp only at h
    split at h
    · cases h
      exact Or.inr rfl
    · exact absurd h (by simp)

theorem foldNodes_error_shape (lat : LatticeGraph) (k : Nat) (nodes : List WordNode)
    (kb : KBMap) (e : ResolveError)
    (h : nodes.foldlM (fun kb node => dpProcessNode lat k kb node) kb =
      Except.error e) :
    ∃ n, e = ResolveError.cannotGetPrevNodes n ∨
      e = ResolveError.noValidPreviousNode n := by
  induction nodes generalizing kb with
  | nil => exact absurd h (by simp [List.foldlM, pure, Except.pure])
  | cons x t ih =>
    rw [List.foldlM_cons] at h
    cases hstep : dpProcessNode lat k kb x with
    | error e' =>
      rw [hstep, exceptErrBind] at h
      cases h
      exact ⟨x, dpProcessNode_error_shape lat k kb x e hstep⟩
    | ok kb1 =>
      rw [hstep, exceptOkBind] at h
      exact ih kb1 h

theorem foldPositions_error_shape (lat : LatticeGraph) (k : Nat) (ps : List Int)
    (kb : KBMap) (e : ResolveError)
    (h : ps.foldlM (dpStep lat k) kb = Except.error e) :
    ∃ n, e = ResolveError.cannotGetPrevNodes n ∨
      e = ResolveError.noValidPreviousNode n := by
  induction ps generalizing kb with
  | nil => exact absurd h (by simp [List.foldlM, pure, Except.pure])
  | cons i t ih =>
    rw [List.foldlM_cons] at h
    cases hnl : lat.node_list i with
    | none =>
      have hstep : dpStep lat k kb i = Except.ok kb := by
        unfold dpStep
        rw [hnl]
      rw [hstep, exceptOkBind] at h
      exact ih kb h
    | some nodes =>
      have hstep : dpStep lat k kb i =
          nodes.foldlM (fun kb node => dpProcessNode lat k kb node) kb := by
        unfold dpStep
        rw [hnl]
      rw [hstep] at h
      cases hfold : nodes.foldlM (fun kb node => dpProcessNode lat k kb node) kb with
      | error e' =>
        rw [hfold, exceptErrBind] at h
        cases h
        exact foldNodes_error_shape lat k nodes kb e hfold
      | ok kb1 =>
        rw [hfold, exceptOkBind] at h
        exact ih kb1 h

theorem dpLoop_error_shape (lat : LatticeGraph) (k : Nat) (e : ResolveError)
    (h : dpLoop lat k = Except.error e) :
    ∃ n, e = ResolveError.cannotGetPrevNodes n ∨
      e = ResolveError.noValidPreviousNode n := by
  rw [dpLoop_eq_foldStep] at h
  exact foldPositions_error_shape lat k (dpPositions lat) [] e h

theorem node_list_eq_get (lat : LatticeGraph) (p : Int) :
    lat.node_list p = lat.get p := rfl

theorem get_candidates_parts (lat : LatticeGraph) (costmap : CostMap)
    (node : WordNode) (end_pos : Int) :
    get_candidates lat costmap node end_pos =
      strictCandidates lat costmap node end_pos ++
        compoundCandidates lat costmap node end_pos := by
  unfold get_candidates strictCandidates compoundCandidates
  cases hnl : lat.node_list end_pos with
  | none => rfl
  | some nl =>
    dsimp only
    split
    · rfl
    · simp

theorem get_candidates_clause_good (lat : LatticeGraph) (costmap : CostMap)
    (node : WordNode) (nl : List WordNode)
    (hnl : lat.node_list (node.start_pos + (utf8Len node.yomi : Int)) = some nl)
    (hmem : node ∈ nl) :
    get_candidates lat costmap node (node.start_pos + (utf8Len node.yomi : Int)) ≠ [] ∧
    ∀ c ∈ get_candidates lat costmap node (node.start_pos + (utf8Len node.yomi : Int)),
      utf8Len c.yomi = utf8Len node.yomi := by
  rw [get_candidates_parts]
  constructor
  · intro hemp
    have hstr := (List.append_eq_nil.mp hemp).1
    have hself : (⟨node.surface, node.yomi, (cmGet costmap node).getD F.f32MAX,
        false⟩ : Candidate) ∈
        strictCandidates lat costmap node
          (node.start_pos + (utf8Len node.yomi : Int)) := by
      unfold strictCandidates
      rw [hnl]
      refine (sortByCmp_perm candidateCompare _).mem_iff.mpr ?_
      refine List.mem_map.mpr ⟨node, List.mem_filter.mpr ⟨hmem, ?_⟩, rfl⟩
      simp
    rw [hstr] at hself
    simp at hself
  · intro c hc
    rcases List.mem_append.mp hc with hc | hc
    · unfold strictCandidates at hc
      rw [hnl] at hc
      have hmem2 := (sortByCmp_perm candidateCompare _).mem_iff.mp hc
      obtain ⟨f, hf, rfl⟩ := List.mem_map.mp hmem2
      obtain ⟨-, hcond⟩ := List.mem_filter.mp hf
      simp only [Bool.and_eq_true, decide_eq_true_eq] at hcond
      exact hcond.2
    · unfold compoundCandidates at hc
      split at hc
      · simp at hc
      · split at hc
        · have hm := (sortByCmp_perm candidateCompare _).mem_iff.mp hc
          exact (collect_breakdown_results_mem 6 _ _ _ _ _ _ _ _ _ _ _ _ hm).2
        · simp at hc

theorem latget_mem (lat : LatticeGraph) (p : Int) (nl : List WordNode)
    (h : lat.get p = some nl) : (p, nl) ∈ lat.graph := by
  obtain ⟨p', hmem, heq⟩ := lookupBy_mem _ p lat.graph nl h
  have hpp : p = p' := by simpa using heq
  subst hpp
  exact hmem

theorem backtrack_good (lat : LatticeGraph) (k : Nat) (kb : KBMap)
    (costmap : CostMap) (bos : WordNode)
    (hmid : ∀ p nl, lat.get p = some nl → 1 ≤ p → p ≤ (utf8Len lat.yomi : Int) →
      ∀ n ∈ nl, 0 ≤ n.start_pos ∧ n.start_pos < p ∧
        n.start_pos + (utf8Len n.yomi : Int) = p ∧
        n.surface ≠ strL "__EOS__" ∧ n.cost.isNan = false)
    (heos : ∀ nl, lat.get ((utf8Len lat.yomi + 1 : Nat) : Int) = some nl →
      ∀ n ∈ nl, n.start_pos = ((utf8Len lat.yomi : Nat) : Int) ∧
        n.surface = strL "__EOS__" ∧ n.cost.isNan = false)
    (hbos : lat.get 0 = some [bos] ∧ bos.start_pos = 0 ∧ bos.cost.isNan = false)
    (hkb : KBInv lat k kb) :
    ∀ fuel (cur : WordNode) (rank : Nat) (p : Int),
      0 ≤ p → p ≤ ((utf8Len lat.yomi + 1 : Nat) : Int) → p.toNat < fuel →
      (∃ nl, lat.get p = some nl ∧ cur ∈ nl) →
      ∀ clause ∈ backtrack lat kb costmap bos fuel cur rank,
        clause ≠ [] ∧ ∃ L, ∀ c ∈ clause, utf8Len c.yomi = L := by
  intro fuel
  induction fuel with
  | zero =>
    intro cur rank p h0 hle hf
    omega
  | succ fuel ih =>
    intro cur rank p h0 hle hf hex clause hclause
    obtain ⟨nl, hget, hcur⟩ := hex
    rw [backtrack] at hclause
    by_cases hreq : WordNode.req cur bos = true
    · rw [if_pos hreq] at hclause
      simp at hclause
    · rw [if_neg hreq] at hclause
      dsimp only at hclause
      by_cases hp0 : p = 0
      · subst hp0
        rw [hbos.1] at hget
        cases hget
        have hcb : cur = bos := by simpa using hcur
        subst hcb
        exact absurd (WordNode.req_refl cur hbos.2.2) hreq
      · by_cases hpe : p = ((utf8Len lat.yomi + 1 : Nat) : Int)
        · subst hpe
          obtain ⟨hsp, hsurf, hnan⟩ := heos nl hget cur hcur
          rw [if_pos hsurf] at hclause
          cases hkbg : kbGet kb cur with
          | none =>
            rw [hkbg] at hclause
            simp at hclause
          | some entries =>
            rw [hkbg] at hclause
            dsimp only at hclause
            obtain ⟨hne, hlenk, hprov⟩ := hkb cur entries hkbg
            cases entries with
            | nil => exact absurd rfl hne
            | cons e0 t =>
              have hpick : ∃ e, e ∈ e0 :: t ∧
                  clause ∈ backtrack lat kb costmap bos fuel e.prev_node
                    e.prev_rank := by
                cases hgr : (e0 :: t).get? rank with
                | some e =>
                  rw [hgr] at hclause
                  exact ⟨e, List.get?_mem hgr, hclause⟩
                | none =>
                  rw [hgr] at hclause
                  exact ⟨e0, List.mem_cons_self e0 t, hclause⟩
              obtain ⟨e, hemem, hcl⟩ := hpick
              obtain ⟨pl, hpl, hin⟩ := hprov e hemem
              refine ih e.prev_node e.prev_rank cur.start_pos ?_ ?_ ?_
                ⟨pl, hpl, hin⟩ clause hcl
              · rw [hsp]
                omega
              · rw [hsp]
                omega
              · rw [hsp]
                omega
        · have h1 : 1 ≤ p := by omega
          have hple : p ≤ (utf8Len lat.yomi : Int) := by omega
          obtain ⟨hs0, hslt, hspan, hsurf, hnan⟩ := hmid p nl hget h1 hple cur hcur
          rw [if_neg hsurf] at hclause
          rcases List.mem_append.mp hclause with hcl0 | hcl0
          · cases hkbg : kbGet kb cur with
            | none =>
              rw [hkbg] at hcl0
              simp at hcl0
            | some entries =>
              rw [hkbg] at hcl0
              dsimp only at hcl0
              obtain ⟨hne, hlenk, hprov⟩ := hkb cur entries hkbg
              cases entries with
              | nil => exact absurd rfl hne
              | cons e0 t =>
                have hpick : ∃ e, e ∈ e0 :: t ∧
                    clause ∈ backtrack lat kb costmap bos fuel e.prev_node
                      e.prev_rank := by
                  cases hgr : (e0 :: t).get? rank with
                  | some e =>
                    rw [hgr] at hcl0
                    exact ⟨e, List.get?_mem hgr, hcl0⟩
                  | none =>
                    rw [hgr] at hcl0
                    exact ⟨e0, List.mem_cons_self e0 t, hcl0⟩
                obtain ⟨e, hemem, hcl⟩ := hpick
                obtain ⟨pl, hpl, hin⟩ := hprov e hemem
                refine ih e.prev_node e.prev_rank cur.start_pos ?_ ?_ ?_
                  ⟨pl, hpl, hin⟩ clause hcl
                · omega
                · omega
                · omega
          · have hclq : clause = get_candidates lat costmap cur
                (cur.start_pos + (utf8Len cur.yomi : Int)) := by
              simpa using hcl0
            subst hclq
            have hnl' : lat.node_list
                (cur.start_pos + (utf8Len cur.yomi : Int)) = some nl := by
              rw [node_list_eq_get, hspan]
              exact hget
            obtain ⟨hcne, hclen⟩ := get_candidates_clause_good lat costmap cur
              nl hnl' hcur
            exact ⟨hcne, utf8Len cur.yomi, hclen⟩

theorem exceptBindOk {α β : Type} (a : α) (g : α → Except ResolveError β) :
    (Except.ok a : Except ResolveError α).bind g = g a := rfl

theorem exceptBindErr {α β : Type} (e : ResolveError) (g : α → Except ResolveError β) :
    (Except.error e : Except ResolveError α).bind g = Except.error e := rfl

/-- The yomi byte length of a clause's first candidate (0 on the empty
clause, which never occurs on a recovered path). -/
def clauseYomiLen (clause : List Candidate) : Nat :=
  utf8Len (clause.headD ⟨[], [], F.nan, false⟩).yomi

theorem pathPattern_eq_map (path : List (List Candidate))
    (h : ∀ clause ∈ path, clause ≠ []) :
    pathPattern path = path.map clauseYomiLen := by
  induction path with
  | nil => rfl
  | cons x t ih =>
    cases hx : x with
    | nil => exact absurd rfl (hx ▸ h x (List.mem_cons_self x t))
    | cons c0 cs =>
      subst hx
      unfold pathPattern at ih ⊢
      have step : List.filterMap
          (fun clause => Option.map (fun c => utf8Len c.yomi) clause.head?)
          (((c0 :: cs) : List Candidate) :: t) =
          utf8Len c0.yomi :: List.filterMap
            (fun clause => Option.map (fun c => utf8Len c.yomi) clause.head?) t := rfl
      rw [step, List.map_cons]
      rw [ih (fun clause hc => h clause (List.mem_cons_of_mem _ hc))]
      rfl

/-- One step of the final dedup fold of `resolve_k_best`. -/
def dedupFold (lat : LatticeGraph) (kb : KBMap) (costmap : CostMap)
    (bos : WordNode) (fuelN : Nat)
    (st : List (List Nat) × List (List (List Candidate))) (e : KBestEntry) :
    List (List Nat) × List (List (List Candidate)) :=
  let path := backtrack lat kb costmap bos fuelN e.prev_node e.prev_rank
  let pattern := pathPattern path
  if st.1.contains pattern then st else (pattern :: st.1, st.2 ++ [path])

theorem resolve_k_best_eq (lat : LatticeGraph) (k : Nat) :
    resolve_k_best lat k = (dpLoop lat k).bind (fun kb =>
      match lat.get ((utf8Len lat.yomi + 1 : Nat) : Int) with
      | none => Except.error ResolveError.eosNodeNotFound
      | some eos_list =>
        match eos_list.head? with
        | none => Except.error ResolveError.eosNodeListEmpty
        | some eos =>
          match lat.get 0 with
          | none => Except.error ResolveError.bosNodeNotFound
          | some bos_list =>
            match bos_list.head? with
            | none => Except.error ResolveError.bosNodeListEmpty
            | some bos =>
              match kbGet kb eos with
              | none => Except.error ResolveError.eosEntriesNotFound
              | some eos_entries =>
                let st := eos_entries.foldl
                  (dedupFold lat kb (buildCostmap kb) bos (utf8Len lat.yomi + 2))
                  ([], [])
                Except.ok (if st.2.isEmpty then [[]] else st.2)) := rfl

theorem foldl_dedup (lat : LatticeGraph) (kb : KBMap) (costmap : CostMap)
    (bos : WordNode) (fuelN : Nat) (es : List KBestEntry) :
    ∀ (seen : List (List Nat)) (acc : List (List (List Candidate))),
    (∀ p ∈ acc, pathPattern p ∈ seen) →
    acc.Pairwise (fun p q => pathPattern p ≠ pathPattern q) →
    (∀ p ∈ acc, ∀ clause ∈ p, clause ≠ [] ∧ ∃ L, ∀ c ∈ clause,
      utf8Len c.yomi = L) →
    (∀ e ∈ es, ∀ clause ∈ backtrack lat kb costmap bos fuelN e.prev_node
      e.prev_rank, clause ≠ [] ∧ ∃ L, ∀ c ∈ clause, utf8Len c.yomi = L) →
    (∀ p ∈ (es.foldl (dedupFold lat kb costmap bos fuelN) (seen, acc)).2,
      pathPattern p ∈ (es.foldl (dedupFold lat kb costmap bos fuelN) (seen, acc)).1) ∧
    (es.foldl (dedupFold lat kb costmap bos fuelN) (seen, acc)).2.Pairwise
      (fun p q => pathPattern p ≠ pathPattern q) ∧
    (∀ p ∈ (es.foldl (dedupFold lat kb costmap bos fuelN) (seen, acc)).2,
      ∀ clause ∈ p, clause ≠ [] ∧ ∃ L, ∀ c ∈ clause, utf8Len c.yomi = L) ∧
    acc.length ≤ (es.foldl (dedupFold lat kb costmap bos fuelN) (seen, acc)).2.length ∧
    (es.foldl (dedupFold lat kb costmap bos fuelN) (seen, acc)).2.length ≤
      acc.length + es.length := by
  induction es with
  | nil =>
    intro seen acc h1 h2 h3 _
    exact ⟨h1, h2, h3, le_refl _, by simp⟩
  | cons e t ih =>
    intro seen acc h1 h2 h3 hes
    rw [List.foldl_cons]
    by_cases hcont : seen.contains
        (pathPattern (backtrack lat kb costmap bos fuelN e.prev_node e.prev_rank)) = true
    · have hstep : dedupFold lat kb costmap bos fuelN (seen, acc) e = (seen, acc) := by
        unfold dedupFold
        dsimp only
        rw [if_pos hcont]
      rw [hstep]
      obtain ⟨g1, g2, g3, g4, g5⟩ := ih seen acc h1 h2 h3
        (fun e' he' => hes e' (List.mem_cons_of_mem _ he'))
      refine ⟨g1, g2, g3, g4, ?_⟩
      have := g5
      simp only [List.length_cons]
      omega
    · have hstep : dedupFold lat kb costmap bos fuelN (seen, acc) e =
          (pathPattern (backtrack lat kb costmap bos fuelN e.prev_node e.prev_rank)
              :: seen,
            acc ++ [backtrack lat kb costmap bos fuelN e.prev_node e.prev_rank]) := by
        unfold dedupFold
        dsimp only
        rw [if_neg hcont]
      rw [hstep]
      have hnotmem : pathPattern
          (backtrack lat kb costmap bos fuelN e.prev_node e.prev_rank) ∉ seen := by
        intro hmem
        exact hcont (by simpa using hmem)
      obtain ⟨g1, g2, g3, g4, g5⟩ := ih
        (pathPattern (backtrack lat kb costmap bos fuelN e.prev_node e.prev_rank)
          :: seen)
        (acc ++ [backtrack lat kb costmap bos fuelN e.prev_node e.prev_rank])
        (by
          intro p hp
          rcases List.mem_append.mp hp with hp | hp
          · exact List.mem_cons_of_mem _ (h1 p hp)
          · rw [List.mem_singleton.mp hp]
            exact List.mem_cons_self _ _)
        (by
          rw [List.pairwise_append]
          refine ⟨h2, List.pairwise_singleton _ _, ?_⟩
          intro p hp q hq
          rw [List.mem_singleton.mp hq]
          intro habs
          exact hnotmem (habs ▸ h1 p hp))
        (by
          intro p hp
          rcases List.mem_append.mp hp with hp | hp
          · exact h3 p hp
          · rw [List.mem_singleton.mp hp]
            exact hes e (List.mem_cons_self _ _))
        (fun e' he' => hes e' (List.mem_cons_of_mem _ he'))
      have hlen : (acc ++
          [backtrack lat kb costmap bos fuelN e.prev_node e.prev_rank]).length =
          acc.length + 1 := by simp
      refine ⟨g1, g2, g3, ?_, ?_⟩
      · have := g4
        omega
      · have := g5
        simp only [List.length_cons]
        omega

/-- Claim C4: `resolve_k_best` errors exactly when the forward DP fails
(some processed node cannot fetch, or is left with an empty set of,
k-best predecessor entries) or the EOS position has no node; every error
is one of those shapes; and on success it returns between 1 and `k`
paths, pairwise distinct in their segmentation signature (the ordered
list of per-clause yomi byte lengths).  The hypotheses state the lattice
shape `LatticeGraph::construct` guarantees: a lone non-NaN BOS at
position 0, spanning non-EOS mid nodes, and `__EOS__` nodes at position
`yomi.len() + 1`. -/
theorem c4_resolve_k_best_error_and_success (lat : LatticeGraph) (k : Nat)
    (hbos : ∃ b, lat.get 0 = some [b] ∧ b.start_pos = 0 ∧ b.cost.isNan = false)
    (hmid : ∀ pe ∈ lat.graph, 1 ≤ pe.1 → pe.1 ≤ (utf8Len lat.yomi : Int) →
      ∀ n ∈ pe.2, 0 ≤ n.start_pos ∧ n.start_pos < pe.1 ∧
        n.start_pos + (utf8Len n.yomi : Int) = pe.1 ∧
        n.surface ≠ strL "__EOS__" ∧ n.cost.isNan = false)
    (heos : ∀ pe ∈ lat.graph, pe.1 = ((utf8Len lat.yomi + 1 : Nat) : Int) →
      ∀ n ∈ pe.2, n.start_pos = ((utf8Len lat.yomi : Nat) : Int) ∧
        n.surface = strL "__EOS__" ∧ n.cost.isNan = false) :
    ((∃ e, resolve_k_best lat k = Except.error e) ↔
      ((∃ e, dpLoop lat k = Except.error e) ∨
        ∀ nl, lat.get ((utf8Len lat.yomi + 1 : Nat) : Int) = some nl → nl = [])) ∧
    (∀ e, resolve_k_best lat k = Except.error e →
      e = ResolveError.eosNodeNotFound ∨ e = ResolveError.eosNodeListEmpty ∨
        ∃ n, e = ResolveError.cannotGetPrevNodes n ∨
          e = ResolveError.noValidPreviousNode n) ∧
    (∀ paths, resolve_k_best lat k = Except.ok paths →
      1 ≤ paths.length ∧ paths.length ≤ k ∧
      paths.Pairwise (fun p q => p.map clauseYomiLen ≠ q.map clauseYomiLen)) := by
  have hmid' : ∀ p nl, lat.get p = some nl → 1 ≤ p →
      p ≤ (utf8Len lat.yomi : Int) →
      ∀ n ∈ nl, 0 ≤ n.start_pos ∧ n.start_pos < p ∧
        n.start_pos + (utf8Len n.yomi : Int) = p ∧
        n.surface ≠ strL "__EOS__" ∧ n.cost.isNan = false :=
    fun p nl hg h1 h2 => hmid (p, nl) (latget_mem lat p nl hg) h1 h2
  have heos' : ∀ nl, lat.get ((utf8Len lat.yomi + 1 : Nat) : Int) = some nl →
      ∀ n ∈ nl, n.start_pos = ((utf8Len lat.yomi : Nat) : Int) ∧
        n.surface = strL "__EOS__" ∧ n.cost.isNan = false :=
    fun nl hg => heos (((utf8Len lat.yomi + 1 : Nat) : Int), nl)
      (latget_mem lat _ nl hg) rfl
  have hmemdp : ((utf8Len lat.yomi + 1 : Nat) : Int) ∈ dpPositions lat := by
    unfold dpPositions
    simp only [List.mem_map, List.mem_range]
    exact ⟨utf8Len lat.yomi, Nat.lt_succ_self _, by
      rw [Int.ofNat_eq_coe]
      push_cast
      ring⟩
  have hcovEos : ∀ kb, dpLoop lat k = Except.ok kb →
      ∀ eos rest', lat.get ((utf8Len lat.yomi + 1 : Nat) : Int) =
        some (eos :: rest') → (kbGet kb eos).isSome := by
    intro kb hdp eos rest' hget
    exact (dpLoop_inv lat k kb hdp).2 _ hmemdp (eos :: rest')
      (by rw [node_list_eq_get]; exact hget) eos (List.mem_cons_self _ _)
      (heos' _ hget eos (List.mem_cons_self _ _)).2.2
  have main : ∀ kb, dpLoop lat k = Except.ok kb →
      ∀ e, resolve_k_best lat k = Except.error e →
      (e = ResolveError.eosNodeNotFound ∨ e = ResolveError.eosNodeListEmpty) ∧
      (∀ nl, lat.get ((utf8Len lat.yomi + 1 : Nat) : Int) = some nl → nl = []) := by
    intro kb hdp e he
    rw [resolve_k_best_eq, hdp, exceptBindOk] at he
    cases hget : lat.get ((utf8Len lat.yomi + 1 : Nat) : Int) with
    | none =>
      rw [hget] at he
      have h2 : (Except.error ResolveError.eosNodeNotFound :
          Except ResolveError (List (List (List Candidate)))) = Except.error e := he
      injection h2 with h3
      refine ⟨Or.inl h3.symm, ?_⟩
      intro nl hnl
      cases hnl
    | some eos_list =>
      rw [hget] at he
      dsimp only at he
      cases eos_list with
      | nil =>
        have h2 : (Except.error ResolveError.eosNodeListEmpty :
            Except ResolveError (List (List (List Candidate)))) = Except.error e := he
        injection h2 with h3
        refine ⟨Or.inr h3.symm, ?_⟩
        intro nl hnl
        cases hnl
        rfl
      | cons eos rest' =>
        rw [List.head?_cons] at he
        dsimp only at he
        obtain ⟨b, hb1, hb2, hb3⟩ := hbos
        rw [hb1] at he
        dsimp only at he
        rw [List.head?_cons] at he
        dsimp only at he
        obtain ⟨es, hes⟩ := Option.isSome_iff_exists.mp
          (hcovEos kb hdp eos rest' hget)
        rw [hes] at he
        dsimp only at he
        exact absurd he (by simp)
  refine ⟨⟨?_, ?_⟩, ?_, ?_⟩
  · rintro ⟨e, he⟩
    cases hdp : dpLoop lat k with
    | error e' => exact Or.inl ⟨e', rfl⟩
    | ok kb => exact Or.inr ((main kb hdp e he).2)
  · rintro (⟨e, hdp⟩ | hempty)
    · exact ⟨e, by rw [resolve_k_best_eq, hdp]; rfl⟩
    · cases hdp : dpLoop lat k with
      | error e => exact ⟨e, by rw [resolve_k_best_eq, hdp]; rfl⟩
      | ok kb =>
        cases hget : lat.get ((utf8Len lat.yomi + 1 : Nat) : Int) with
        | none =>
          refine ⟨ResolveError.eosNodeNotFound, ?_⟩
          rw [resolve_k_best_eq, hdp, exceptBindOk, hget]
        | some nl =>
          have h0 : nl = [] := hempty nl hget
          subst h0
          refine ⟨ResolveError.eosNodeListEmpty, ?_⟩
          rw [resolve_k_best_eq, hdp, exceptBindOk, hget]
          rfl
  · intro e he
    cases hdp : dpLoop lat k with
    | error e' =>
      have hre : resolve_k_best lat k = Except.error e' := by
        rw [resolve_k_best_eq, hdp]
        rfl
      have hee : e' = e := by
        have := hre.symm.trans he
        exact (Except.error.injEq _ _ ▸ this)
      subst hee
      exact Or.inr (Or.inr (dpLoop_error_shape lat k e' hdp))
    | ok kb =>
      rcases (main kb hdp e he).1 with h | h
      · exact Or.inl h
      · exact Or.inr (Or.inl h)
  · intro paths hok
    cases hdp : dpLoop lat k with
    | error e =>
      rw [resolve_k_best_eq, hdp, exceptBindErr] at hok
      exact absurd hok (by simp)
    | ok kb =>
      rw [resolve_k_best_eq, hdp, exceptBindOk] at hok
      obtain ⟨hinv, hcov⟩ := dpLoop_inv lat k kb hdp
      cases hget : lat.get ((utf8Len lat.yomi + 1 : Nat) : Int) with
      | none =>
        rw [hget] at hok
        exact absurd hok (by simp)
      | some eos_list =>
        rw [hget] at hok
        dsimp only at hok
        cases eos_list with
        | nil => exact absurd hok (by simp)
        | cons eos rest' =>
          rw [List.head?_cons] at hok
          dsimp only at hok
          obtain ⟨b, hb1, hb2, hb3⟩ := hbos
          rw [hb1] at hok
          dsimp only at hok
          rw [List.head?_cons] at hok
          dsimp only at hok
          obtain ⟨es, hes⟩ := Option.isSome_iff_exists.mp
            (hcovEos kb hdp eos rest' hget)
          rw [hes] at hok
          dsimp only at hok
          obtain ⟨hne, hlenk, hprov⟩ := hinv eos es hes
          have hstart : eos.start_pos = ((utf8Len lat.yomi : Nat) : Int) :=
            (heos' _ hget eos (List.mem_cons_self _ _)).1
          have hgood : ∀ e ∈ es, ∀ clause ∈ backtrack lat kb (buildCostmap kb) b
              (utf8Len lat.yomi + 2) e.prev_node e.prev_rank,
              clause ≠ [] ∧ ∃ L, ∀ c ∈ clause, utf8Len c.yomi = L := by
            intro e he
            obtain ⟨pl, hpl, hin⟩ := hprov e he
            refine backtrack_good lat k kb (buildCostmap kb) b hmid' heos'
              ⟨hb1, hb2, hb3⟩ hinv (utf8Len lat.yomi + 2) e.prev_node
              e.prev_rank eos.start_pos ?_ ?_ ?_ ⟨pl, hpl, hin⟩
            · rw [hstart]
              omega
            · rw [hstart]
              omega
            · rw [hstart]
              omega
          cases es with
          | nil => exact absurd rfl hne
          | cons e0 t =>
            rw [List.foldl_cons] at hok
            have hstep0 : dedupFold lat kb (buildCostmap kb) b
                (utf8Len lat.yomi + 2) ([], []) e0 =
                ([pathPattern (backtrack lat kb (buildCostmap kb) b
                    (utf8Len lat.yomi + 2) e0.prev_node e0.prev_rank)],
                  [backtrack lat kb (buildCostmap kb) b
                    (utf8Len lat.yomi + 2) e0.prev_node e0.prev_rank]) := rfl
            rw [hstep0] at hok
            obtain ⟨g1, g2, g3, g4, g5⟩ := foldl_dedup lat kb (buildCostmap kb) b
              (utf8Len lat.yomi + 2) t
              [pathPattern (backtrack lat kb (buildCostmap kb) b
                (utf8Len lat.yomi + 2) e0.prev_node e0.prev_rank)]
              [backtrack lat kb (buildCostmap kb) b
                (utf8Len lat.yomi + 2) e0.prev_node e0.prev_rank]
              (by
                intro p hp
                rw [List.mem_singleton.mp hp]
                exact List.mem_cons_self _ _)
              (List.pairwise_singleton _ _)
              (by
                intro p hp
                rw [List.mem_singleton.mp hp]
                exact hgood e0 (List.mem_cons_self _ _))
              (fun e' he' => hgood e' (List.mem_cons_of_mem _ he'))
            injection hok with hp
            have h1len : 1 ≤ (List.foldl (dedupFold lat kb (buildCostmap kb) b
                (utf8Len lat.yomi + 2))
                ([pathPattern (backtrack lat kb (buildCostmap kb) b
                    (utf8Len lat.yomi + 2) e0.prev_node e0.prev_rank)],
                  [backtrack lat kb (buildCostmap kb) b
                    (utf8Len lat.yomi + 2) e0.prev_node e0.prev_rank]) t).2.length := by
              have := g4
              simpa using this
            have hisE : (List.foldl (dedupFold lat kb (buildCostmap kb) b
                (utf8Len lat.yomi + 2))
                ([pathPattern (backtrack lat kb (buildCostmap kb) b
                    (utf8Len lat.yomi + 2) e0.prev_node e0.prev_rank)],
                  [backtrack lat kb (buildCostmap kb) b
                    (utf8Len lat.yomi + 2) e0.prev_node e0.prev_rank]) t).2.isEmpty
                = false := by
              cases hres : (List.foldl (dedupFold lat kb (buildCostmap kb) b
                  (utf8Len lat.yomi + 2))
                  ([pathPattern (backtrack lat kb (buildCostmap kb) b
                      (utf8Len lat.yomi + 2) e0.prev_node e0.prev_rank)],
                    [backtrack lat kb (buildCostmap kb) b
                      (utf8Len lat.yomi + 2) e0.prev_node e0.prev_rank]) t).2 with
              | nil =>
                rw [hres] at h1len
                simp at h1len
              | cons a l => rfl
            rw [hisE] at hp
            simp only [Bool.false_eq_true, if_false] at hp
            subst hp
            refine ⟨h1len, ?_, ?_⟩
            · have := g5
              have hone : [backtrack lat kb (buildCostmap kb) b
                  (utf8Len lat.yomi + 2) e0.prev_node e0.prev_rank].length = 1 := rfl
              simp only [List.length_cons] at hlenk
              omega
            · refine g2.imp_of_mem ?_
              intro p q hpmem hqmem hne2 habs
              apply hne2
              rw [pathPattern_eq_map p (fun cl hc => (g3 p hpmem cl hc).1),
                pathPattern_eq_map q (fun cl hc => (g3 q hqmem cl hc).1), habs]

/-- A concrete BOS node for the C4 witness lattice. -/
def c4bos : WordNode := ⟨0, strL "__BOS__", strL "__BOS__", F.fin 0, none, false⟩

/-- A concrete one-character lattice ("a" read as A) exercising the
resolver end to end. -/
def c4lat : LatticeGraph :=
  ⟨strL "a",
   [(0, [c4bos]),
    (1, [⟨0, strL "A", strL "a", F.fin 1, none, false⟩]),
    (2, [⟨1, strL "__EOS__", strL "", F.fin 0, none, false⟩])],
   ⟨⟨0, 0, []⟩, ⟨0, 0, []⟩⟩, ⟨fun c => F.fin c⟩, ⟨fun _ _ => none, F.fin 10⟩⟩

/-- Witness for C4: on the concrete lattice, `resolve_k_best` with k = 2
succeeds with between 1 and 2 paths of pairwise distinct segmentation
signatures. -/
theorem c4_resolve_k_best_error_and_success_witness :
    ∃ paths, resolve_k_best c4lat 2 = Except.ok paths ∧
      1 ≤ paths.length ∧ paths.length ≤ 2 ∧
      paths.Pairwise (fun p q => p.map clauseYomiLen ≠ q.map clauseYomiLen) := by
  have h := c4_resolve_k_best_error_and_success c4lat 2
    ⟨c4bos, rfl, rfl, rfl⟩ (by decide) (by decide)
  cases hres : resolve_k_best c4lat 2 with
  | error e =>
    have hcontra : (resolve_k_best c4lat 2).toOption.isSome = true := by decide
    rw [hres] at hcontra
    simp [Except.toOption] at hcontra
  | ok paths =>
    obtain ⟨hp1, hp2, hp3⟩ := h.2.2 paths hres
    exact ⟨paths, rfl, hp1, hp2, hp3⟩
